import Mathlib

/-!
Verification of the lightfile6-png optimization pipeline.

This file gives a shallow embedding, in Lean 4, of the PNG optimization
pipeline of `github.com/ideamans/lightfile6-png`: the PSNR quality metric
(`PngPsnr`), the acceptance threshold table (`isAcceptablePSNR`), the
`MaybeInf` JSON codec, the chunk codec and comment manager
(`ReadComment` / `BuildComment` / `WriteComment` / `WriteCommentString`),
the NRGBA-to-RGBA color-space conversion, the `Pngquant` wrapper, and the
orchestrating `Run` pipeline, together with theorems settling the frozen
behavioural claims about them.

Modelling conventions:
  - `float64` values are modelled by `GoFloat`: a finite rational, one of
    the two infinities, or NaN.  The final PSNR decibel value
    `10 * log10(255^2 / mse)` is a strictly decreasing injective function
    of the mean-squared error, so `PngPsnr` carries the exact rational
    `mse` in its `finite` constructor; equality facts about scores are
    equivalent to equality facts about this representation.
  - Byte strings are `List Nat`, each entry intended below 256; functions
    that, in Go, operate on `[]byte` check or preserve this range
    explicitly where it matters.
  - External collaborators (the metadata stripper, the libimagequant
    engine, the `go-psnr` wrapper, and the stdlib PNG decoder) enter the
    pipeline as oracle fields of `RunEnv`; everything implemented inside
    the repository is embedded as concrete Lean functions.
-/

/-- Model of a Go `float64` value as used by this program: a finite value
(represented exactly as a rational), positive or negative infinity, or NaN. -/
inductive GoFloat where
  | finite (q : ℚ)
  | posInf
  | negInf
  | nan
  deriving DecidableEq, Repr

/-- The Go type `MaybeInf` is declared as `type MaybeInf float64`; its values
are modelled the same way as any other `float64`. -/
abbrev MaybeInf := GoFloat

/-- Go comparison `f >= c` on a `float64` against a finite constant: false for
NaN and negative infinity, true for positive infinity. -/
def GoFloat.ge : GoFloat → ℚ → Bool
  | .finite q, c => decide (c ≤ q)
  | .posInf, _ => true
  | .negInf, _ => false
  | .nan, _ => false

/-- Go comparison `f < c` on a `float64` against a finite constant: false for
NaN and positive infinity, true for negative infinity. -/
def GoFloat.lt : GoFloat → ℚ → Bool
  | .finite q, c => decide (q < c)
  | .posInf, _ => false
  | .negInf, _ => true
  | .nan, _ => false

/-- Embedding of `isAcceptablePSNR` from `png.go`: positive infinity is always
acceptable (`math.IsInf(psnr, 1)`), otherwise the threshold depends on the
quality string: `high` requires 45, `low` requires 39, `force` always accepts,
and every other string requires 42. -/
def isAcceptablePSNR (quality : String) (psnr : GoFloat) : Bool :=
  if psnr = .posInf then true
  else if quality = "high" then psnr.ge 45
  else if quality = "low" then psnr.ge 39
  else if quality = "force" then true
  else psnr.ge 42

/-- The global PSNR inspection floor `PSNRThreshold = 35.0` from `png.go`. -/
def PSNRThreshold : ℚ := 35

/-! ### The MaybeInf JSON codec

`MaybeInf.MarshalJSON` and `MaybeInf.UnmarshalJSON` are embedded at the byte
level.  `encoding/json` guarantees that a finite `float64` marshals to a
decimal token that unmarshals back to the identical value; we model the
number token by an injective textual encoding of the exact rational value
(digits of the numerator, a separator, digits of the denominator), which
preserves exactly the information `encoding/json` round-trips. -/

/-- Byte values (code points) of an ASCII string literal. -/
def asciiBytes (s : String) : List Nat := s.data.map Char.toNat

/-- Little helper: decimal digits of `n`, least significant first, using
explicit fuel so that the definition is structurally recursive and reduces
in the kernel.  `natDigitsRevFuel n n` is total for every `n`. -/
def natDigitsRevFuel : Nat → Nat → List Nat
  | _, 0 => []
  | 0, _ + 1 => []
  | fuel + 1, n + 1 => ((n + 1) % 10) :: natDigitsRevFuel fuel ((n + 1) / 10)

/-- Decimal digits of `n`, least significant first. -/
def natDigitsRev (n : Nat) : List Nat := natDigitsRevFuel n n

/-- ASCII bytes of the usual decimal rendering of a natural number. -/
def encNat (n : Nat) : List Nat :=
  if n = 0 then [48] else ((natDigitsRev n).reverse.map (fun d => d + 48))

/-- ASCII bytes of the decimal rendering of an integer. -/
def encInt (i : Int) : List Nat :=
  if i < 0 then 45 :: encNat i.natAbs else encNat i.toNat

/-- Injective textual encoding of a rational number token: numerator, the
separator byte 47, denominator.  Stands in for the decimal float64 token
produced by `encoding/json`; see the section comment. -/
def encRat (q : ℚ) : List Nat := encInt q.num ++ [47] ++ encNat q.den

/-- Value of a most-significant-first list of decimal digit bytes. -/
def parseNat (ds : List Nat) : Nat :=
  ds.foldl (fun acc d => acc * 10 + (d - 48)) 0

/-- Split off the longest run of leading decimal digit bytes. -/
def scanDigits : List Nat → List Nat × List Nat
  | [] => ([], [])
  | b :: rest =>
    if 48 ≤ b ∧ b ≤ 57 then
      let (ds, r) := scanDigits rest
      (b :: ds, r)
    else ([], b :: rest)

/-- Parse an optional minus sign followed by a nonempty digit run. -/
def parseIntTok (bs : List Nat) : Option (Int × List Nat) :=
  if bs.head? = some 45 then
    let (ds, r) := scanDigits bs.tail
    if ds = [] then none else some (-(parseNat ds : Int), r)
  else
    let (ds, r) := scanDigits bs
    if ds = [] then none else some ((parseNat ds : Int), r)

/-- Parse the rational token written by `encRat`, requiring the whole input
to be consumed. -/
def parseRatAll (bs : List Nat) : Option ℚ :=
  match parseIntTok bs with
  | none => none
  | some (n, rest) =>
    match rest with
    | 47 :: rest2 =>
      let (ds, r) := scanDigits rest2
      if ds = [] then none
      else if r = [] then some ((n : ℚ) / (parseNat ds : ℚ))
      else none
    | _ => none

/-- Embedding of `MaybeInf.MarshalJSON`: an infinite value of either sign
(`math.IsInf(m, 0)`) marshals to the token `null`; a finite value marshals to
its number token; NaN makes `json.Marshal` fail, modelled by `none`. -/
def MaybeInf.MarshalJSON : MaybeInf → Option (List Nat)
  | .posInf => some (asciiBytes "null")
  | .negInf => some (asciiBytes "null")
  | .nan => none
  | .finite q => some (encRat q)

/-- Embedding of `MaybeInf.UnmarshalJSON`: the token `null` unmarshals to
positive infinity, a number token to its finite value, anything else fails. -/
def MaybeInf.UnmarshalJSON (bs : List Nat) : Option MaybeInf :=
  if bs = asciiBytes "null" then some .posInf
  else
    match parseRatAll bs with
    | some q => some (.finite q)
    | none => none

/-! ### Round-trip lemmas for the numeric tokens -/

theorem natDigitsRevFuel_spec (fuel : Nat) :
    ∀ n, n ≤ fuel → (natDigitsRevFuel fuel n).foldr (fun d acc => acc * 10 + d) 0 = n := by
  induction fuel with
  | zero =>
    intro n hn
    interval_cases n
    rfl
  | succ f ih =>
    intro n hn
    match n with
    | 0 => rfl
    | m + 1 =>
      have hdiv : (m + 1) / 10 ≤ f := by
        have h1 : (m + 1) / 10 < m + 1 := Nat.div_lt_self (Nat.succ_pos m) (by omega)
        omega
      simp only [natDigitsRevFuel, List.foldr_cons, ih _ hdiv]
      omega

theorem natDigitsRev_spec (n : Nat) :
    (natDigitsRev n).foldr (fun d acc => acc * 10 + d) 0 = n :=
  natDigitsRevFuel_spec n n (le_refl n)

theorem natDigitsRevFuel_lt_ten (fuel : Nat) :
    ∀ n, ∀ d ∈ natDigitsRevFuel fuel n, d < 10 := by
  induction fuel with
  | zero =>
    intro n d hd
    cases n <;> simp [natDigitsRevFuel] at hd
  | succ f ih =>
    intro n d hd
    match n with
    | 0 => simp [natDigitsRevFuel] at hd
    | m + 1 =>
      simp only [natDigitsRevFuel, List.mem_cons] at hd
      rcases hd with h | h
      · omega
      · exact ih _ _ h

/-- Every byte of `encNat n` is a decimal digit byte. -/
theorem encNat_digits (n : Nat) : ∀ b ∈ encNat n, 48 ≤ b ∧ b ≤ 57 := by
  intro b hb
  by_cases h : n = 0
  · subst h
    simp [encNat] at hb
    omega
  · simp only [encNat, if_neg h, List.mem_map, List.mem_reverse] at hb
    obtain ⟨d, hd, rfl⟩ := hb
    have := natDigitsRevFuel_lt_ten n n d hd
    omega

theorem encNat_ne_nil (n : Nat) : encNat n ≠ [] := by
  by_cases h : n = 0
  · subst h
    simp [encNat]
  · simp only [encNat, if_neg h]
    match n, h with
    | m + 1, _ => simp [natDigitsRev, natDigitsRevFuel]

/-- Scanning digits off `encNat n ++ rest` recovers `encNat n` whenever `rest`
does not begin with another digit byte. -/
theorem scanDigits_encNat (n : Nat) (rest : List Nat)
    (hrest : ∀ b, rest.head? = some b → ¬(48 ≤ b ∧ b ≤ 57)) :
    scanDigits (encNat n ++ rest) = (encNat n, rest) := by
  have hds := encNat_digits n
  generalize hE : encNat n = ds at hds
  clear hE
  induction ds with
  | nil =>
    simp only [List.nil_append]
    match rest with
    | [] => rfl
    | b :: r =>
      have := hrest b rfl
      simp [scanDigits, this]
  | cons d ds ih =>
    have hd := hds d (by simp)
    have hds' : ∀ b ∈ ds, 48 ≤ b ∧ b ≤ 57 := fun b hb => hds b (by simp [hb])
    simp only [List.cons_append, scanDigits, if_pos hd, List.append_eq, ih hds']

/-- `parseNat` inverts `encNat`. -/
theorem parseNat_encNat (n : Nat) : parseNat (encNat n) = n := by
  by_cases h : n = 0
  · subst h
    rfl
  · have key : ∀ l : List Nat,
        List.foldr (fun d acc => acc * 10 + (d + 48 - 48)) 0 l =
        List.foldr (fun d acc => acc * 10 + d) 0 l := by
      intro l
      induction l with
      | nil => rfl
      | cons x xs ihx =>
        simp only [List.foldr_cons]
        rw [ihx]
        omega
    simp only [parseNat, encNat, if_neg h, List.foldl_map, List.foldl_reverse]
    calc List.foldr (fun d acc => acc * 10 + (d + 48 - 48)) 0 (natDigitsRev n)
        = List.foldr (fun d acc => acc * 10 + d) 0 (natDigitsRev n) := key _
      _ = n := natDigitsRev_spec n

/-- `parseIntTok` inverts `encInt`, leaving a non-digit remainder alone. -/
theorem parseIntTok_encInt (i : Int) (rest : List Nat)
    (hrest : ∀ b, rest.head? = some b → ¬(48 ≤ b ∧ b ≤ 57)) :
    parseIntTok (encInt i ++ rest) = some (i, rest) := by
  by_cases hneg : i < 0
  · simp only [encInt, if_pos hneg, List.cons_append, parseIntTok]
    rw [if_pos (by rfl)]
    simp only [List.tail_cons]
    rw [scanDigits_encNat i.natAbs rest hrest]
    simp only [if_neg (encNat_ne_nil i.natAbs), parseNat_encNat, Option.some.injEq,
      Prod.mk.injEq]
    exact ⟨by omega, trivial⟩
  · have hhead : ¬((encNat i.toNat ++ rest).head? = some 45) := by
      match hE : encNat i.toNat with
      | [] => exact absurd hE (encNat_ne_nil _)
      | d :: ds =>
        have hd := encNat_digits i.toNat d (by rw [hE]; simp)
        simp only [List.cons_append, List.head?_cons, Option.some.injEq]
        omega
    simp only [encInt, if_neg hneg, parseIntTok]
    rw [if_neg hhead]
    rw [scanDigits_encNat i.toNat rest hrest]
    simp only [if_neg (encNat_ne_nil i.toNat), parseNat_encNat, Option.some.injEq,
      Prod.mk.injEq]
    exact ⟨by omega, trivial⟩

/-- `parseRatAll` inverts `encRat`. -/
theorem parseRatAll_encRat (q : ℚ) : parseRatAll (encRat q) = some q := by
  have h1 : parseIntTok (encInt q.num ++ (47 :: encNat q.den)) =
      some (q.num, 47 :: encNat q.den) := by
    apply parseIntTok_encInt
    intro b hb
    simp only [List.head?_cons, Option.some.injEq] at hb
    omega
  have h2 : scanDigits (encNat q.den) = (encNat q.den, []) := by
    have := scanDigits_encNat q.den [] (by intro b hb; simp at hb)
    simpa using this
  have hshape : encRat q = encInt q.num ++ (47 :: encNat q.den) := by
    simp [encRat]
  rw [hshape]
  simp only [parseRatAll, h1]
  simp [h2, encNat_ne_nil q.den, parseNat_encNat, Rat.num_div_den]

/-! ### Claim theorems: threshold table and MaybeInf codec -/

/-- C3.  The quantization acceptance predicate accepts exactly when the
quality is `high` and the score is at least 45 (so exactly 45.0 is accepted
and 44.999 is rejected), the quality is `low` and the score is at least 39,
the quality is `force` (unconditionally), or the quality is any other string
and the score is at least 42; a positive-infinite score is accepted at every
quality level. -/
theorem isAcceptablePSNR_spec :
    (∀ (quality : String) (s : GoFloat),
      isAcceptablePSNR quality s = true ↔
        ((quality = "high" ∧ s.ge 45 = true) ∨
         (quality = "low" ∧ s.ge 39 = true) ∨
         quality = "force" ∨
         (quality ≠ "high" ∧ quality ≠ "low" ∧ quality ≠ "force" ∧ s.ge 42 = true) ∨
         s = .posInf)) ∧
    isAcceptablePSNR "high" (.finite 45) = true ∧
    isAcceptablePSNR "high" (.finite (44999 / 1000)) = false ∧
    (∀ quality, isAcceptablePSNR quality .posInf = true) := by
  refine ⟨?_, ?_, ?_, ?_⟩
  case refine_2 =>
    have h1 : GoFloat.finite (45 : ℚ) ≠ GoFloat.posInf := fun hcon => by cases hcon
    unfold isAcceptablePSNR
    rw [if_neg h1, if_pos rfl]
    simp [GoFloat.ge]
  case refine_3 =>
    have h1 : GoFloat.finite ((44999 : ℚ) / 1000) ≠ GoFloat.posInf := fun hcon => by cases hcon
    unfold isAcceptablePSNR
    rw [if_neg h1, if_pos rfl]
    simp only [GoFloat.ge, decide_eq_false_iff_not]
    norm_num
  · intro quality s
    constructor
    · intro hacc
      unfold isAcceptablePSNR at hacc
      by_cases hinf : s = .posInf
      · exact Or.inr (Or.inr (Or.inr (Or.inr hinf)))
      · rw [if_neg hinf] at hacc
        by_cases hh : quality = "high"
        · rw [if_pos hh] at hacc
          exact Or.inl ⟨hh, hacc⟩
        · rw [if_neg hh] at hacc
          by_cases hl : quality = "low"
          · rw [if_pos hl] at hacc
            exact Or.inr (Or.inl ⟨hl, hacc⟩)
          · rw [if_neg hl] at hacc
            by_cases hf : quality = "force"
            · exact Or.inr (Or.inr (Or.inl hf))
            · rw [if_neg hf] at hacc
              exact Or.inr (Or.inr (Or.inr (Or.inl ⟨hh, hl, hf, hacc⟩)))
    · intro hcond
      unfold isAcceptablePSNR
      by_cases hinf : s = .posInf
      · rw [if_pos hinf]
      · rw [if_neg hinf]
        rcases hcond with ⟨hh, hge⟩ | ⟨hl, hge⟩ | hf | ⟨hh, hl, hf, hge⟩ | hinf2
        · rw [if_pos hh]
          exact hge
        · subst hl
          rw [if_neg (show ¬("low" : String) = "high" by decide), if_pos rfl]
          exact hge
        · subst hf
          rw [if_neg (show ¬("force" : String) = "high" by decide),
            if_neg (show ¬("force" : String) = "low" by decide), if_pos rfl]
        · rw [if_neg hh, if_neg hl, if_neg hf]
          exact hge
        · exact absurd hinf2 hinf
  · intro quality
    simp [isAcceptablePSNR]

/-- C7.  Marshaling a positive-infinite `MaybeInf` yields the token `null`;
unmarshaling `null` yields positive infinity; every finite value round-trips
exactly through marshal then unmarshal. -/
theorem maybeInf_json_roundtrip :
    MaybeInf.MarshalJSON .posInf = some (asciiBytes "null") ∧
    MaybeInf.UnmarshalJSON (asciiBytes "null") = some .posInf ∧
    (∀ q : ℚ, (MaybeInf.MarshalJSON (.finite q)).bind MaybeInf.UnmarshalJSON =
      some (.finite q)) := by
  refine ⟨rfl, rfl, ?_⟩
  intro q
  have hne : encRat q ≠ asciiBytes "null" := by
    intro hcon
    have h47 : 47 ∈ encRat q := by simp [encRat]
    rw [hcon] at h47
    simp [asciiBytes] at h47
  have hstep : (MaybeInf.MarshalJSON (.finite q)).bind MaybeInf.UnmarshalJSON =
      MaybeInf.UnmarshalJSON (encRat q) := rfl
  rw [hstep, MaybeInf.UnmarshalJSON, if_neg hne, parseRatAll_encRat]

/-- C10.  The infinity check in `MaybeInf.MarshalJSON` is sign-agnostic, so a
negative-infinite value also marshals to the token `null`, and therefore does
not round-trip: unmarshaling the marshaled bytes yields positive infinity. -/
theorem maybeInf_negInf_marshals_to_null :
    MaybeInf.MarshalJSON .negInf = some (asciiBytes "null") ∧
    (MaybeInf.MarshalJSON .negInf).bind MaybeInf.UnmarshalJSON = some .posInf ∧
    (GoFloat.posInf ≠ GoFloat.negInf) := by
  exact ⟨rfl, rfl, by decide⟩

/-! ### The quality metric `PngPsnr`

The source decodes both byte slices and then walks the pixels of the first
image's bounds; images decoded from PNG data always have their origin at
(0, 0), so a decoded image is modelled by a width, a height, and a pixel
function returning the 16-bit red, green and blue samples that Go's
`Color.RGBA()` returns.  The decibel score `10 * log10(255^2 / mse)` is a
strictly decreasing injective function of the mean-squared error `mse`, so
the `finite` result carries the exact rational `mse`; two scores are equal
exactly when these representations are equal. -/

structure Rgb16Image where
  width : Nat
  height : Nat
  pix : Nat → Nat → Nat × Nat × Nat

/-- One pixel's contribution to the accumulated sum in `PngPsnr`: the squared
channel differences, each arithmetically shifted right by 16 bits (`>> 16` on
a non-negative `int64` is division by 2^16). -/
def psnrTerm (a b : Rgb16Image) (x y : Nat) : Int :=
  let p := a.pix x y
  let q := b.pix x y
  let r : Int := (p.1 : Int) - (q.1 : Int)
  let g : Int := (p.2.1 : Int) - (q.2.1 : Int)
  let bl : Int := (p.2.2 : Int) - (q.2.2 : Int)
  r * r / 65536 + g * g / 65536 + bl * bl / 65536

/-- The accumulated integer sum of `PngPsnr` over the bounds of the first
image. -/
def psnrSum (a b : Rgb16Image) : Int :=
  ∑ y ∈ Finset.range a.height, ∑ x ∈ Finset.range a.width, psnrTerm a b x y

/-- Embedding of `PngPsnr`: if the accumulated sum is zero the score is
positive infinity, otherwise the finite score determined by the mean-squared
error `sum / (width * height * 3)` (the source then reports
`10 * log10(255^2 / mse)` decibels, an injective function of this value). -/
def PngPsnr (a b : Rgb16Image) : GoFloat :=
  if psnrSum a b = 0 then .posInf
  else .finite ((psnrSum a b : ℚ) / ((a.width * a.height * 3 : Nat) : ℚ))

/-- The accumulated sum of an image against itself vanishes, so the score is
positive infinity. -/
theorem pngPsnr_self (a : Rgb16Image) : PngPsnr a a = .posInf := by
  have h0 : psnrSum a a = 0 := by
    unfold psnrSum psnrTerm
    simp
  unfold PngPsnr
  rw [if_pos h0]

/-- C8.  The quality metric is symmetric on images of equal bounds, and the
score of an image against itself is positive infinity. -/
theorem pngPsnr_symm_and_self :
    (∀ a b : Rgb16Image, a.width = b.width → a.height = b.height →
      PngPsnr a b = PngPsnr b a) ∧
    (∀ a : Rgb16Image, PngPsnr a a = .posInf) := by
  constructor
  · intro a b hw hh
    have e1 : ∀ m n : Int, (m - n) * (m - n) = (n - m) * (n - m) := fun m n => by ring
    have hterm : ∀ x y, psnrTerm a b x y = psnrTerm b a x y := by
      intro x y
      simp only [psnrTerm]
      rw [e1 (((a.pix x y).1 : Int)) (((b.pix x y).1 : Int)),
        e1 (((a.pix x y).2.1 : Int)) (((b.pix x y).2.1 : Int)),
        e1 (((a.pix x y).2.2 : Int)) (((b.pix x y).2.2 : Int))]
    have hsum : psnrSum a b = psnrSum b a := by
      unfold psnrSum
      rw [← hw, ← hh]
      exact Finset.sum_congr rfl (fun y _ => Finset.sum_congr rfl (fun x _ => hterm x y))
    unfold PngPsnr
    rw [hsum, hw, hh]
  · exact pngPsnr_self

/-- A concrete 1-by-1 all-black decoded image. -/
def psnrImgA : Rgb16Image := ⟨1, 1, fun _ _ => (0, 0, 0)⟩

/-- A concrete 1-by-1 decoded image with a saturated red sample. -/
def psnrImgB : Rgb16Image := ⟨1, 1, fun _ _ => (65535, 0, 0)⟩

/-- Witness for C8 at concrete one-pixel images. -/
theorem pngPsnr_symm_and_self_witness :
    PngPsnr psnrImgA psnrImgB = PngPsnr psnrImgB psnrImgA ∧
    PngPsnr psnrImgA psnrImgA = .posInf :=
  ⟨pngPsnr_symm_and_self.1 psnrImgA psnrImgB rfl rfl,
   pngPsnr_symm_and_self.2 psnrImgA⟩

/-! ### The color-space adapter

`convertNRGBAToRGBA` from `binding.go`.  A decoded 8-bit four-channel image
is a width, a height, and a pixel function returning the red, green, blue
and alpha bytes; Go's `image.RGBA`/`image.NRGBA` accessors return the zero
pixel outside the image rectangle, and decoded PNG images have their origin
at (0, 0).  The `% 256` operations are the `uint8` casts of the source (the
`uint16` products cannot overflow for byte inputs). -/

structure Rgba8 where
  width : Nat
  height : Nat
  pix : Nat → Nat → Nat × Nat × Nat × Nat

/-- Embedding of `convertNRGBAToRGBA`: per pixel, each color channel becomes
`uint8(uint16(c) * uint16(a) / 255)` (integer division, i.e. truncation) and
the alpha channel is copied unchanged. -/
def convertNRGBAToRGBA (src : Rgba8) : Rgba8 where
  width := src.width
  height := src.height
  pix := fun x y =>
    if x < src.width ∧ y < src.height then
      let p := src.pix x y
      ((p.1 % 256) * (p.2.2.2 % 256) / 255 % 256,
       (p.2.1 % 256) * (p.2.2.2 % 256) / 255 % 256,
       (p.2.2.1 % 256) * (p.2.2.2 % 256) / 255 % 256,
       p.2.2.2 % 256)
    else (0, 0, 0, 0)

/-- A 1-by-1 NRGBA image whose single pixel is `(R, G, B, A) = (1, 0, 0, 128)`. -/
def nrgbaHalfAlphaImg : Rgba8 := ⟨1, 1, fun _ _ => (1, 0, 0, 128)⟩

/-- C9, counterexample.  The claim states the output channel is
`round(src.channel * src.alpha / 255)`; at the pixel `(1, 0, 0, 128)` the
code computes `1 * 128 / 255 = 0` by truncation while rounding would give 1,
so the claim as stated is false. -/
theorem convertNRGBAToRGBA_not_round :
    ((convertNRGBAToRGBA nrgbaHalfAlphaImg).pix 0 0).1 = 0 ∧
    round ((1 * 128 : ℚ) / 255) = 1 ∧ (0 : ℤ) ≠ 1 := by
  refine ⟨rfl, ?_, by decide⟩
  rw [round_eq, Int.floor_eq_iff]
  norm_num

/-- C9, amended.  For every in-bounds pixel of a byte-valued NRGBA source,
the conversion computes each output color channel as the truncated quotient
`src.channel * src.alpha / 255` and copies the alpha channel unchanged. -/
theorem convertNRGBAToRGBA_truncates (src : Rgba8) (x y r g b a : Nat)
    (hx : x < src.width) (hy : y < src.height)
    (hp : src.pix x y = (r, g, b, a))
    (hr : r < 256) (hg : g < 256) (hb : b < 256) (ha : a < 256) :
    (convertNRGBAToRGBA src).pix x y = (r * a / 255, g * a / 255, b * a / 255, a) := by
  have hmod : ∀ c : Nat, c < 256 → c % 256 = c := fun c hc => Nat.mod_eq_of_lt hc
  have hdiv : ∀ c : Nat, c < 256 → c * a / 255 % 256 = c * a / 255 := by
    intro c hc
    apply Nat.mod_eq_of_lt
    have h1 : c * a ≤ 255 * 255 := Nat.mul_le_mul (by omega) (by omega)
    have h2 : c * a / 255 ≤ 255 * 255 / 255 := Nat.div_le_div_right h1
    omega
  simp only [convertNRGBAToRGBA, if_pos (And.intro hx hy), hp]
  rw [hmod r hr, hmod g hg, hmod b hb, hmod a ha, hdiv r hr, hdiv g hg, hdiv b hb]

/-- Witness for the amended C9 at the concrete half-alpha pixel. -/
theorem convertNRGBAToRGBA_truncates_witness :
    (convertNRGBAToRGBA nrgbaHalfAlphaImg).pix 0 0 =
      (1 * 128 / 255, 0 * 128 / 255, 0 * 128 / 255, 128) :=
  convertNRGBAToRGBA_truncates nrgbaHalfAlphaImg 0 0 1 0 0 128
    (by decide) (by decide) rfl (by decide) (by decide) (by decide) (by decide)

/-! ### JSON string encoding

`encoding/json` (as invoked by `json.Marshal`, i.e. with HTML escaping on)
escapes the quote, the backslash, newline, carriage return and tab, every
other control character, the characters `<`, `>`, `&`, and U+2028/U+2029 as
`\uXXXX`, and emits every other character as its raw UTF-8 bytes.  The
decoder below inverts exactly this encoder; Go's `json.Unmarshal` decodes a
superset of it. -/

/-- UTF-8 bytes of a Unicode scalar value. -/
def utf8Encode (n : Nat) : List Nat :=
  if n < 128 then [n]
  else if n < 2048 then [192 + n / 64, 128 + n % 64]
  else if n < 65536 then [224 + n / 4096, 128 + n / 64 % 64, 128 + n % 64]
  else [240 + n / 262144, 128 + n / 4096 % 64, 128 + n / 64 % 64, 128 + n % 64]

/-- Lowercase hex digit byte for a value below 16. -/
def hexDigitByte (d : Nat) : Nat := if d < 10 then 48 + d else 87 + d

/-- Four lowercase hex digit bytes of a value below 65536. -/
def hex4 (n : Nat) : List Nat :=
  [hexDigitByte (n / 4096 % 16), hexDigitByte (n / 256 % 16),
   hexDigitByte (n / 16 % 16), hexDigitByte (n % 16)]

/-- Bytes emitted for one character by the `encoding/json` string encoder. -/
def encChar (c : Char) : List Nat :=
  if c.toNat = 34 then [92, 34]
  else if c.toNat = 92 then [92, 92]
  else if c.toNat = 10 then [92, 110]
  else if c.toNat = 13 then [92, 114]
  else if c.toNat = 9 then [92, 116]
  else if c.toNat < 32 ∨ c.toNat = 60 ∨ c.toNat = 62 ∨ c.toNat = 38 then [92, 117] ++ hex4 c.toNat
  else if c.toNat = 8232 ∨ c.toNat = 8233 then [92, 117] ++ hex4 c.toNat
  else utf8Encode c.toNat

/-- Bytes emitted for a character sequence by the string encoder. -/
def encCharList : List Char → List Nat
  | [] => []
  | c :: cs => encChar c ++ encCharList cs

/-- A JSON string literal: quote, escaped characters, quote. -/
def encString (s : String) : List Nat := 34 :: (encCharList s.data ++ [34])

/-- Inverse of `hexDigitByte` on lowercase hex digit bytes. -/
def decodeHexDigit (b : Nat) : Option Nat :=
  if 48 ≤ b ∧ b ≤ 57 then some (b - 48)
  else if 97 ≤ b ∧ b ≤ 102 then some (b - 87)
  else none

/-- Decode four hex digit bytes into a value. -/
def hex4decode (h1 h2 h3 h4 : Nat) : Option Nat :=
  (decodeHexDigit h1).bind fun d1 =>
  (decodeHexDigit h2).bind fun d2 =>
  (decodeHexDigit h3).bind fun d3 =>
  (decodeHexDigit h4).map fun d4 => d1 * 4096 + d2 * 256 + d3 * 16 + d4

/-- Prepend a decoded character to a string-decoder result. -/
def consChar (c : Char) (o : Option (List Char × List Nat)) :
    Option (List Char × List Nat) :=
  o.map (fun p => (c :: p.1, p.2))

/-- Decoder for the body of a JSON string literal (after the opening quote):
consumes bytes until the closing quote, decoding escapes and UTF-8
sequences, and returns the characters plus the remaining bytes.  The fuel
argument only bounds the number of decoded characters; `decStrFuel bs.length
bs` is total. -/
def decStrFuel : Nat → List Nat → Option (List Char × List Nat)
  | _, [] => none
  | 0, _ :: _ => none
  | fuel + 1, b :: bs =>
    if b = 34 then some ([], bs)
    else if b = 92 then
      match bs with
      | 34 :: r => consChar '"' (decStrFuel fuel r)
      | 92 :: r => consChar '\\' (decStrFuel fuel r)
      | 110 :: r => consChar '\n' (decStrFuel fuel r)
      | 114 :: r => consChar '\r' (decStrFuel fuel r)
      | 116 :: r => consChar '\t' (decStrFuel fuel r)
      | 117 :: h1 :: h2 :: h3 :: h4 :: r =>
        match hex4decode h1 h2 h3 h4 with
        | some v => consChar (Char.ofNat v) (decStrFuel fuel r)
        | none => none
      | _ => none
    else if b < 128 then consChar (Char.ofNat b) (decStrFuel fuel bs)
    else if b < 224 then
      match bs with
      | b2 :: r =>
        if 194 ≤ b ∧ 128 ≤ b2 ∧ b2 < 192 then
          consChar (Char.ofNat ((b - 192) * 64 + (b2 - 128))) (decStrFuel fuel r)
        else none
      | [] => none
    else if b < 240 then
      match bs with
      | b2 :: b3 :: r =>
        if 128 ≤ b2 ∧ b2 < 192 ∧ 128 ≤ b3 ∧ b3 < 192 then
          consChar (Char.ofNat ((b - 224) * 4096 + (b2 - 128) * 64 + (b3 - 128)))
            (decStrFuel fuel r)
        else none
      | _ => none
    else
      match bs with
      | b2 :: b3 :: b4 :: r =>
        if b < 245 ∧ 128 ≤ b2 ∧ b2 < 192 ∧ 128 ≤ b3 ∧ b3 < 192 ∧ 128 ≤ b4 ∧ b4 < 192 then
          consChar
            (Char.ofNat ((b - 240) * 262144 + (b2 - 128) * 4096 + (b3 - 128) * 64 + (b4 - 128)))
            (decStrFuel fuel r)
        else none
      | _ => none

/-- Decode a JSON string literal from the front of `bs` (expecting the
opening quote), returning the string and the remaining bytes. -/
def decString (bs : List Nat) : Option (String × List Nat) :=
  match bs with
  | 34 :: rest =>
    match decStrFuel rest.length rest with
    | some (cs, r) => some (String.mk cs, r)
    | none => none
  | _ => none

theorem char_toNat_inj {a b : Char} (h : a.toNat = b.toNat) : a = b := by
  have ha := Char.ofNat_toNat a
  have hb := Char.ofNat_toNat b
  rw [← ha, ← hb, h]

theorem decodeHexDigit_hexDigitByte (d : Nat) (hd : d < 16) :
    decodeHexDigit (hexDigitByte d) = some d := by
  unfold hexDigitByte decodeHexDigit
  by_cases h : d < 10
  · rw [if_pos h, if_pos (by omega)]
    congr 1
    omega
  · rw [if_neg h, if_neg (by omega), if_pos (by omega)]
    congr 1
    omega

theorem hex4decode_hex4 (v : Nat) (hv : v < 65536) :
    hex4decode (hexDigitByte (v / 4096 % 16)) (hexDigitByte (v / 256 % 16))
      (hexDigitByte (v / 16 % 16)) (hexDigitByte (v % 16)) = some v := by
  unfold hex4decode
  rw [decodeHexDigit_hexDigitByte _ (by omega), decodeHexDigit_hexDigitByte _ (by omega),
    decodeHexDigit_hexDigitByte _ (by omega), decodeHexDigit_hexDigitByte _ (by omega)]
  simp only [Option.some_bind, Option.map_some']
  congr 1
  omega

theorem decStrFuel_uescape (fuel : Nat) (tail : List Nat) (c : Char)
    (hv : c.toNat < 65536) :
    decStrFuel (fuel + 1) (([92, 117] ++ hex4 c.toNat) ++ tail) =
      consChar c (decStrFuel fuel tail) := by
  simp only [hex4, List.cons_append, List.nil_append]
  have hstep : decStrFuel (fuel + 1) (92 :: 117 :: hexDigitByte (c.toNat / 4096 % 16) ::
      hexDigitByte (c.toNat / 256 % 16) :: hexDigitByte (c.toNat / 16 % 16) ::
      hexDigitByte (c.toNat % 16) :: tail) =
      (match hex4decode (hexDigitByte (c.toNat / 4096 % 16)) (hexDigitByte (c.toNat / 256 % 16))
          (hexDigitByte (c.toNat / 16 % 16)) (hexDigitByte (c.toNat % 16)) with
       | some v => consChar (Char.ofNat v) (decStrFuel fuel tail)
       | none => none) := rfl
  rw [hstep, hex4decode_hex4 c.toNat hv]
  show consChar (Char.ofNat c.toNat) (decStrFuel fuel tail) = consChar c (decStrFuel fuel tail)
  rw [Char.ofNat_toNat]

theorem decStrFuel_utf8_one (fuel : Nat) (tail : List Nat) (c : Char)
    (h1 : c.toNat < 128) (h34 : ¬(c.toNat = 34)) (h92 : ¬(c.toNat = 92)) :
    decStrFuel (fuel + 1) (c.toNat :: tail) = consChar c (decStrFuel fuel tail) := by
  simp only [decStrFuel]
  rw [if_neg h34, if_neg h92, if_pos h1, Char.ofNat_toNat]

theorem decStrFuel_utf8_two (fuel : Nat) (tail : List Nat) (c : Char)
    (hlo : 128 ≤ c.toNat) (hhi : c.toNat < 2048) :
    decStrFuel (fuel + 1) ((192 + c.toNat / 64) :: (128 + c.toNat % 64) :: tail) =
      consChar c (decStrFuel fuel tail) := by
  simp only [decStrFuel]
  rw [if_neg (by omega), if_neg (by omega), if_neg (by omega), if_pos (by omega)]
  show (if 194 ≤ 192 + c.toNat / 64 ∧ 128 ≤ 128 + c.toNat % 64 ∧ 128 + c.toNat % 64 < 192 then
      consChar (Char.ofNat ((192 + c.toNat / 64 - 192) * 64 + (128 + c.toNat % 64 - 128)))
        (decStrFuel fuel tail)
    else none) = consChar c (decStrFuel fuel tail)
  rw [if_pos (by omega)]
  have harg : (192 + c.toNat / 64 - 192) * 64 + (128 + c.toNat % 64 - 128) = c.toNat := by
    omega
  rw [harg, Char.ofNat_toNat]

theorem decStrFuel_utf8_three (fuel : Nat) (tail : List Nat) (c : Char)
    (hlo : 2048 ≤ c.toNat) (hhi : c.toNat < 65536) :
    decStrFuel (fuel + 1) ((224 + c.toNat / 4096) :: (128 + c.toNat / 64 % 64) ::
      (128 + c.toNat % 64) :: tail) = consChar c (decStrFuel fuel tail) := by
  simp only [decStrFuel]
  rw [if_neg (by omega), if_neg (by omega), if_neg (by omega), if_neg (by omega),
    if_pos (by omega)]
  show (if 128 ≤ 128 + c.toNat / 64 % 64 ∧ 128 + c.toNat / 64 % 64 < 192 ∧
        128 ≤ 128 + c.toNat % 64 ∧ 128 + c.toNat % 64 < 192 then
      consChar (Char.ofNat ((224 + c.toNat / 4096 - 224) * 4096 +
        (128 + c.toNat / 64 % 64 - 128) * 64 + (128 + c.toNat % 64 - 128)))
        (decStrFuel fuel tail)
    else none) = consChar c (decStrFuel fuel tail)
  rw [if_pos (by omega)]
  have harg : (224 + c.toNat / 4096 - 224) * 4096 + (128 + c.toNat / 64 % 64 - 128) * 64 +
      (128 + c.toNat % 64 - 128) = c.toNat := by
    omega
  rw [harg, Char.ofNat_toNat]

theorem decStrFuel_utf8_four (fuel : Nat) (tail : List Nat) (c : Char)
    (hlo : 65536 ≤ c.toNat) (hhi : c.toNat < 1114112) :
    decStrFuel (fuel + 1) ((240 + c.toNat / 262144) :: (128 + c.toNat / 4096 % 64) ::
      (128 + c.toNat / 64 % 64) :: (128 + c.toNat % 64) :: tail) =
      consChar c (decStrFuel fuel tail) := by
  simp only [decStrFuel]
  rw [if_neg (by omega), if_neg (by omega), if_neg (by omega), if_neg (by omega),
    if_neg (by omega)]
  show (if 240 + c.toNat / 262144 < 245 ∧ 128 ≤ 128 + c.toNat / 4096 % 64 ∧
        128 + c.toNat / 4096 % 64 < 192 ∧ 128 ≤ 128 + c.toNat / 64 % 64 ∧
        128 + c.toNat / 64 % 64 < 192 ∧ 128 ≤ 128 + c.toNat % 64 ∧ 128 + c.toNat % 64 < 192 then
      consChar (Char.ofNat ((240 + c.toNat / 262144 - 240) * 262144 +
        (128 + c.toNat / 4096 % 64 - 128) * 4096 + (128 + c.toNat / 64 % 64 - 128) * 64 +
        (128 + c.toNat % 64 - 128))) (decStrFuel fuel tail)
    else none) = consChar c (decStrFuel fuel tail)
  rw [if_pos (by omega)]
  have harg : (240 + c.toNat / 262144 - 240) * 262144 + (128 + c.toNat / 4096 % 64 - 128) * 4096 +
      (128 + c.toNat / 64 % 64 - 128) * 64 + (128 + c.toNat % 64 - 128) = c.toNat := by
    omega
  rw [harg, Char.ofNat_toNat]

/-- Decoding inverts the single-character encoder. -/
theorem decStrFuel_encChar (c : Char) (fuel : Nat) (tail : List Nat) :
    decStrFuel (fuel + 1) (encChar c ++ tail) = consChar c (decStrFuel fuel tail) := by
  have hvalid : c.toNat < 55296 ∨ (57343 < c.toNat ∧ c.toNat < 1114112) := c.valid
  by_cases h34 : c.toNat = 34
  · have hc : c = '"' := char_toNat_inj (by rw [h34]; rfl)
    subst hc
    rfl
  by_cases h92 : c.toNat = 92
  · have hc : c = '\\' := char_toNat_inj (by rw [h92]; rfl)
    subst hc
    rfl
  by_cases h10 : c.toNat = 10
  · have hc : c = '\n' := char_toNat_inj (by rw [h10]; rfl)
    subst hc
    rfl
  by_cases h13 : c.toNat = 13
  · have hc : c = '\r' := char_toNat_inj (by rw [h13]; rfl)
    subst hc
    rfl
  by_cases h9 : c.toNat = 9
  · have hc : c = '\t' := char_toNat_inj (by rw [h9]; rfl)
    subst hc
    rfl
  by_cases hu : c.toNat < 32 ∨ c.toNat = 60 ∨ c.toNat = 62 ∨ c.toNat = 38
  · have henc : encChar c = [92, 117] ++ hex4 c.toNat := by
      simp only [encChar]
      rw [if_neg h34, if_neg h92, if_neg h10, if_neg h13, if_neg h9, if_pos hu]
    rw [henc]
    exact decStrFuel_uescape fuel tail c (by omega)
  by_cases hu2 : c.toNat = 8232 ∨ c.toNat = 8233
  · have henc : encChar c = [92, 117] ++ hex4 c.toNat := by
      simp only [encChar]
      rw [if_neg h34, if_neg h92, if_neg h10, if_neg h13, if_neg h9, if_neg hu, if_pos hu2]
    rw [henc]
    exact decStrFuel_uescape fuel tail c (by omega)
  have henc : encChar c = utf8Encode c.toNat := by
    simp only [encChar]
    rw [if_neg h34, if_neg h92, if_neg h10, if_neg h13, if_neg h9, if_neg hu, if_neg hu2]
  rw [henc]
  by_cases hs1 : c.toNat < 128
  · have hshape : utf8Encode c.toNat = [c.toNat] := by
      unfold utf8Encode
      rw [if_pos hs1]
    rw [hshape, List.cons_append, List.nil_append]
    exact decStrFuel_utf8_one fuel tail c hs1 h34 h92
  by_cases hs2 : c.toNat < 2048
  · have hshape : utf8Encode c.toNat = [192 + c.toNat / 64, 128 + c.toNat % 64] := by
      unfold utf8Encode
      rw [if_neg hs1, if_pos hs2]
    rw [hshape, List.cons_append, List.cons_append, List.nil_append]
    exact decStrFuel_utf8_two fuel tail c (by omega) hs2
  by_cases hs3 : c.toNat < 65536
  · have hshape : utf8Encode c.toNat =
        [224 + c.toNat / 4096, 128 + c.toNat / 64 % 64, 128 + c.toNat % 64] := by
      unfold utf8Encode
      rw [if_neg hs1, if_neg hs2, if_pos hs3]
    rw [hshape, List.cons_append, List.cons_append, List.cons_append, List.nil_append]
    exact decStrFuel_utf8_three fuel tail c (by omega) hs3
  · have hshape : utf8Encode c.toNat = [240 + c.toNat / 262144, 128 + c.toNat / 4096 % 64,
        128 + c.toNat / 64 % 64, 128 + c.toNat % 64] := by
      unfold utf8Encode
      rw [if_neg hs1, if_neg hs2, if_neg hs3]
    rw [hshape, List.cons_append, List.cons_append, List.cons_append, List.cons_append,
      List.nil_append]
    exact decStrFuel_utf8_four fuel tail c (by omega) (by omega)

/-- Decoding inverts the character-list encoder. -/
theorem decStrFuel_encCharList (cs : List Char) (rest : List Nat) :
    ∀ fuel, cs.length < fuel →
      decStrFuel fuel (encCharList cs ++ 34 :: rest) = some (cs, rest) := by
  induction cs with
  | nil =>
    intro fuel hf
    match fuel, hf with
    | f + 1, _ =>
      simp only [encCharList, List.nil_append]
      rfl
  | cons c cs ih =>
    intro fuel hf
    match fuel, hf with
    | f + 1, hf =>
      simp only [encCharList, List.append_assoc]
      rw [decStrFuel_encChar c f (encCharList cs ++ 34 :: rest)]
      rw [ih f (by simp at hf; omega)]
      rfl

theorem encChar_length_pos (c : Char) : 0 < (encChar c).length := by
  unfold encChar
  by_cases h1 : c.toNat = 34
  · rw [if_pos h1]
    simp
  rw [if_neg h1]
  by_cases h2 : c.toNat = 92
  · rw [if_pos h2]
    simp
  rw [if_neg h2]
  by_cases h3 : c.toNat = 10
  · rw [if_pos h3]
    simp
  rw [if_neg h3]
  by_cases h4 : c.toNat = 13
  · rw [if_pos h4]
    simp
  rw [if_neg h4]
  by_cases h5 : c.toNat = 9
  · rw [if_pos h5]
    simp
  rw [if_neg h5]
  by_cases h6 : c.toNat < 32 ∨ c.toNat = 60 ∨ c.toNat = 62 ∨ c.toNat = 38
  · rw [if_pos h6]
    simp [hex4]
  rw [if_neg h6]
  by_cases h7 : c.toNat = 8232 ∨ c.toNat = 8233
  · rw [if_pos h7]
    simp [hex4]
  rw [if_neg h7]
  unfold utf8Encode
  by_cases h8 : c.toNat < 128
  · rw [if_pos h8]
    simp
  rw [if_neg h8]
  by_cases h9 : c.toNat < 2048
  · rw [if_pos h9]
    simp
  rw [if_neg h9]
  by_cases h10 : c.toNat < 65536
  · rw [if_pos h10]
    simp
  rw [if_neg h10]
  simp

theorem encCharList_length_ge (cs : List Char) : cs.length ≤ (encCharList cs).length := by
  induction cs with
  | nil => simp [encCharList]
  | cons c cs ih =>
    have := encChar_length_pos c
    simp only [encCharList, List.length_append, List.length_cons]
    omega

/-- Decoding inverts the string encoder, leaving the remainder alone. -/
theorem decString_encString (s : String) (rest : List Nat) :
    decString (encString s ++ rest) = some (s, rest) := by
  have hshape : encString s ++ rest = 34 :: (encCharList s.data ++ 34 :: rest) := by
    simp [encString]
  rw [hshape]
  have hfuel : s.data.length < (encCharList s.data ++ 34 :: rest).length := by
    have := encCharList_length_ge s.data
    simp only [List.length_append, List.length_cons]
    omega
  simp only [decString]
  rw [decStrFuel_encCharList s.data rest _ hfuel]

theorem hexDigitByte_lt (d : Nat) (hd : d < 16) : hexDigitByte d < 256 := by
  unfold hexDigitByte
  split <;> omega

/-- Every byte emitted by the character encoder is a byte value. -/
theorem encChar_bytes_lt (c : Char) : ∀ b ∈ encChar c, b < 256 := by
  have hv : c.toNat < 55296 ∨ (57343 < c.toNat ∧ c.toNat < 1114112) := c.valid
  have hvv : c.toNat < 1114112 := by
    rcases hv with h | h
    · omega
    · omega
  intro b hb
  unfold encChar at hb
  by_cases h1 : c.toNat = 34
  · rw [if_pos h1] at hb
    simp at hb
    omega
  rw [if_neg h1] at hb
  by_cases h2 : c.toNat = 92
  · rw [if_pos h2] at hb
    simp at hb
    omega
  rw [if_neg h2] at hb
  by_cases h3 : c.toNat = 10
  · rw [if_pos h3] at hb
    simp at hb
    omega
  rw [if_neg h3] at hb
  by_cases h4 : c.toNat = 13
  · rw [if_pos h4] at hb
    simp at hb
    omega
  rw [if_neg h4] at hb
  by_cases h5 : c.toNat = 9
  · rw [if_pos h5] at hb
    simp at hb
    omega
  rw [if_neg h5] at hb
  by_cases h6 : c.toNat < 32 ∨ c.toNat = 60 ∨ c.toNat = 62 ∨ c.toNat = 38
  · rw [if_pos h6] at hb
    simp [hex4] at hb
    rcases hb with rfl | rfl | rfl | rfl | rfl | rfl
    · omega
    · omega
    · exact hexDigitByte_lt _ (by omega)
    · exact hexDigitByte_lt _ (by omega)
    · exact hexDigitByte_lt _ (by omega)
    · exact hexDigitByte_lt _ (by omega)
  rw [if_neg h6] at hb
  by_cases h7 : c.toNat = 8232 ∨ c.toNat = 8233
  · rw [if_pos h7] at hb
    simp [hex4] at hb
    rcases hb with rfl | rfl | rfl | rfl | rfl | rfl
    · omega
    · omega
    · exact hexDigitByte_lt _ (by omega)
    · exact hexDigitByte_lt _ (by omega)
    · exact hexDigitByte_lt _ (by omega)
    · exact hexDigitByte_lt _ (by omega)
  rw [if_neg h7] at hb
  unfold utf8Encode at hb
  by_cases h8 : c.toNat < 128
  · rw [if_pos h8] at hb
    simp at hb
    omega
  rw [if_neg h8] at hb
  by_cases h9 : c.toNat < 2048
  · rw [if_pos h9] at hb
    simp at hb
    rcases hb with rfl | rfl
    · omega
    · omega
  rw [if_neg h9] at hb
  by_cases h10 : c.toNat < 65536
  · rw [if_pos h10] at hb
    simp at hb
    rcases hb with rfl | rfl | rfl
    · omega
    · omega
    · omega
  rw [if_neg h10] at hb
  simp at hb
  rcases hb with rfl | rfl | rfl | rfl
  · omega
  · omega
  · omega
  · omega

theorem encCharList_bytes_lt (cs : List Char) : ∀ b ∈ encCharList cs, b < 256 := by
  induction cs with
  | nil => simp [encCharList]
  | cons c cs ih =>
    intro b hb
    simp only [encCharList, List.mem_append] at hb
    rcases hb with h | h
    · exact encChar_bytes_lt c b h
    · exact ih b h

/-! ### The LightFileComment record and its JSON codec

`LightFileComment` from the comment manager: tool identifier, original and
optimized sizes, whether quantization was applied, and the final score.
`marshalComment` produces the object `json.Marshal` emits for this struct
(fields in declaration order); `unmarshalComment` parses exactly that shape,
which is the restriction of `json.Unmarshal` to the documents this program
itself produces. -/

structure LightFileComment where
  By : String
  Before : Int
  After : Int
  PNGQuant : Bool
  PSNR : MaybeInf
  deriving DecidableEq, Repr

/-- JSON bytes of a boolean. -/
def encBool (b : Bool) : List Nat :=
  if b then asciiBytes "true" else asciiBytes "false"

/-- The JSON document `json.Marshal` produces for a `LightFileComment`
(`none` exactly when the score is NaN, which `encoding/json` rejects). -/
def marshalComment (c : LightFileComment) : Option (List Nat) :=
  match MaybeInf.MarshalJSON c.PSNR with
  | none => none
  | some ps =>
    some (asciiBytes "\x7b\"by\":" ++ encString c.By ++
      asciiBytes ",\"before\":" ++ encInt c.Before ++
      asciiBytes ",\"after\":" ++ encInt c.After ++
      asciiBytes ",\"pngquant\":" ++ encBool c.PNGQuant ++
      asciiBytes ",\"psnr\":" ++ ps ++ asciiBytes "\x7d")

/-- Strip an expected literal token off the front of the input. -/
def dropTok (tok bs : List Nat) : Option (List Nat) :=
  if bs.take tok.length = tok then some (bs.drop tok.length) else none

/-- Split the input at the first occurrence of the byte `stop`. -/
def splitAtByte (stop : Nat) : List Nat → Option (List Nat × List Nat)
  | [] => none
  | b :: rest =>
    if b = stop then some ([], rest)
    else
      match splitAtByte stop rest with
      | some (pre, post) => some (b :: pre, post)
      | none => none

/-- Parse a JSON boolean literal. -/
def parseBoolTok (bs : List Nat) : Option (Bool × List Nat) :=
  match dropTok (asciiBytes "true") bs with
  | some r => some (true, r)
  | none =>
    match dropTok (asciiBytes "false") bs with
    | some r => some (false, r)
    | none => none

/-- Parser for the exact document shape `marshalComment` produces; models
`json.Unmarshal` into a `LightFileComment` on the documents this program
writes. -/
def unmarshalComment (bs : List Nat) : Option LightFileComment :=
  (dropTok (asciiBytes "\x7b\"by\":") bs).bind fun bs1 =>
  (decString bs1).bind fun p1 =>
  (dropTok (asciiBytes ",\"before\":") p1.2).bind fun bs2 =>
  (parseIntTok bs2).bind fun p2 =>
  (dropTok (asciiBytes ",\"after\":") p2.2).bind fun bs3 =>
  (parseIntTok bs3).bind fun p3 =>
  (dropTok (asciiBytes ",\"pngquant\":") p3.2).bind fun bs4 =>
  (parseBoolTok bs4).bind fun p4 =>
  (dropTok (asciiBytes ",\"psnr\":") p4.2).bind fun bs5 =>
  (splitAtByte 125 bs5).bind fun p5 =>
  (MaybeInf.UnmarshalJSON p5.1).bind fun psnr =>
  if p5.2 = [] then some ⟨p1.1, p2.1, p3.1, p4.1, psnr⟩ else none

theorem dropTok_append (tok rest : List Nat) : dropTok tok (tok ++ rest) = some rest := by
  unfold dropTok
  rw [List.take_left, if_pos rfl, List.drop_left]

theorem parseBoolTok_encBool (b : Bool) (rest : List Nat) :
    parseBoolTok (encBool b ++ rest) = some (b, rest) := by
  cases b
  · have h1 : dropTok (asciiBytes "true") (encBool false ++ rest) = none := by
      unfold dropTok
      rw [if_neg ?hcond]
      case hcond =>
        rw [show ((encBool false ++ rest).take (asciiBytes "true").length) =
          [102, 97, 108, 115] from rfl]
        decide
    unfold parseBoolTok
    rw [h1]
    have h2 : encBool false = asciiBytes "false" := rfl
    rw [h2, dropTok_append]
  · unfold parseBoolTok
    have h2 : encBool true = asciiBytes "true" := rfl
    rw [h2, dropTok_append]

theorem splitAtByte_spec (stop : Nat) (pre post : List Nat)
    (hpre : ∀ b ∈ pre, ¬(b = stop)) :
    splitAtByte stop (pre ++ stop :: post) = some (pre, post) := by
  induction pre with
  | nil =>
    simp [splitAtByte]
  | cons b bs ih =>
    have hb : ¬(b = stop) := hpre b (by simp)
    show splitAtByte stop (b :: (bs ++ stop :: post)) = some (b :: bs, post)
    unfold splitAtByte
    rw [if_neg hb, ih (fun x hx => hpre x (by simp [hx]))]

theorem encInt_no125 (i : Int) : ∀ b ∈ encInt i, ¬(b = 125) := by
  intro b hb
  unfold encInt at hb
  split at hb
  · simp only [List.mem_cons] at hb
    rcases hb with rfl | hb
    · omega
    · have := encNat_digits i.natAbs b hb
      omega
  · have := encNat_digits i.toNat b hb
    omega

theorem marshalled_psnr_no125 (m : MaybeInf) (ps : List Nat)
    (hm : MaybeInf.MarshalJSON m = some ps) : ∀ b ∈ ps, ¬(b = 125) := by
  intro b hb
  cases m with
  | posInf =>
    simp only [MaybeInf.MarshalJSON, Option.some.injEq] at hm
    subst hm
    simp [asciiBytes] at hb
    omega
  | negInf =>
    simp only [MaybeInf.MarshalJSON, Option.some.injEq] at hm
    subst hm
    simp [asciiBytes] at hb
    omega
  | nan => cases hm
  | finite q =>
    simp only [MaybeInf.MarshalJSON, Option.some.injEq] at hm
    subst hm
    simp only [encRat, List.mem_append, List.mem_singleton] at hb
    rcases hb with (hb | rfl) | hb
    · exact encInt_no125 q.num b hb
    · omega
    · have := encNat_digits q.den b hb
      omega

theorem unmarshal_marshalled_psnr (m : MaybeInf) (ps : List Nat)
    (hm : MaybeInf.MarshalJSON m = some ps) (hneg : m ≠ .negInf) :
    MaybeInf.UnmarshalJSON ps = some m := by
  cases m with
  | posInf =>
    simp only [MaybeInf.MarshalJSON, Option.some.injEq] at hm
    subst hm
    rfl
  | negInf => exact absurd rfl hneg
  | nan => cases hm
  | finite q =>
    simp only [MaybeInf.MarshalJSON, Option.some.injEq] at hm
    subst hm
    have hne : encRat q ≠ asciiBytes "null" := by
      intro hcon
      have h47 : 47 ∈ encRat q := by simp [encRat]
      rw [hcon] at h47
      simp [asciiBytes] at h47
    rw [MaybeInf.UnmarshalJSON, if_neg hne, parseRatAll_encRat]

/-- `json.Unmarshal` inverts `json.Marshal` on `LightFileComment` documents
whose score is not negative infinity (NaN never marshals). -/
theorem unmarshalComment_marshalComment (c : LightFileComment) (js : List Nat)
    (hm : marshalComment c = some js) (hneg : c.PSNR ≠ .negInf) :
    unmarshalComment js = some c := by
  unfold marshalComment at hm
  cases hps : MaybeInf.MarshalJSON c.PSNR with
  | none =>
    rw [hps] at hm
    cases hm
  | some ps =>
    rw [hps] at hm
    simp only [Option.some.injEq] at hm
    subst hm
    have hno125 : ∀ b ∈ ps, ¬(b = 125) := marshalled_psnr_no125 c.PSNR ps hps
    unfold unmarshalComment
    simp only [List.append_assoc]
    rw [dropTok_append]
    simp only [Option.some_bind]
    rw [decString_encString]
    simp only [Option.some_bind]
    rw [dropTok_append]
    simp only [Option.some_bind]
    have hI1 : ∀ X : List Nat, parseIntTok (encInt c.Before ++ (asciiBytes ",\"after\":" ++ X)) =
        some (c.Before, asciiBytes ",\"after\":" ++ X) := by
      intro X
      apply parseIntTok_encInt
      intro b hb
      rw [show ((asciiBytes ",\"after\":" ++ X).head?) = some 44 from rfl] at hb
      simp only [Option.some.injEq] at hb
      omega
    have hI2 : ∀ X : List Nat, parseIntTok (encInt c.After ++ (asciiBytes ",\"pngquant\":" ++ X)) =
        some (c.After, asciiBytes ",\"pngquant\":" ++ X) := by
      intro X
      apply parseIntTok_encInt
      intro b hb
      rw [show ((asciiBytes ",\"pngquant\":" ++ X).head?) = some 44 from rfl] at hb
      simp only [Option.some.injEq] at hb
      omega
    rw [hI1]
    simp only [Option.some_bind]
    rw [dropTok_append]
    simp only [Option.some_bind]
    rw [hI2]
    simp only [Option.some_bind]
    rw [dropTok_append]
    simp only [Option.some_bind]
    rw [parseBoolTok_encBool]
    simp only [Option.some_bind]
    rw [dropTok_append]
    simp only [Option.some_bind]
    rw [show (ps ++ asciiBytes "\x7d") = ps ++ 125 :: [] from rfl,
      splitAtByte_spec 125 ps [] hno125]
    simp only [Option.some_bind]
    rw [unmarshal_marshalled_psnr c.PSNR ps hps hneg]
    simp

/-! ### Error taxonomy

`DataError` and `SystemError` from `error.go`, reduced to the distinction the
claims need: every error is data-classified or system-classified and remains
inspectable through wrapping. -/

inductive PngError where
  | data (msg : String)
  | system (msg : String)
  deriving DecidableEq, Repr

/-- `AsDataError` succeeds exactly on data-classified errors. -/
def PngError.isData : PngError → Bool
  | .data _ => true
  | .system _ => false

/-! ### The chunk codec

A `Chunk` is the source's `pngstructure.Chunk` restricted to the fields this
program reads and writes: the 4-byte type tag and the data bytes.  The
serializer `writeChunk` is embedded from `comment.go` (length, type, data,
CRC-32); the parser `ParseBytes` stands in for the external
`pngstructure.NewPngMediaParser().ParseBytes`.

Modelled from the spec: the parse operation of the external chunk codec
(`go-png-image-structure`, not part of this repository) decodes the byte
stream into an ordered chunk sequence after the fixed 8-byte signature,
failing with a data error if the signature is absent, if a chunk's stated
length exceeds the remaining bytes, or if no terminal chunk is present; a
valid container contains exactly one terminal `IEND` chunk, as the last
chunk.  Since `List Nat` is wider than a byte stream, the model also
rejects inputs with an entry that is not a byte. -/

structure Chunk where
  ty : List Nat
  data : List Nat
  deriving DecidableEq, Repr

/-- The fixed 8-byte PNG signature. -/
def pngSignature : List Nat := [137, 80, 78, 71, 13, 10, 26, 10]

/-- The `tEXt` chunk type tag. -/
def tEXtType : List Nat := asciiBytes "tEXt"

/-- The `IEND` terminal chunk type tag. -/
def iendType : List Nat := asciiBytes "IEND"

/-- The reserved comment keyword `LightFile`. -/
def lightFileKeyword : List Nat := asciiBytes "LightFile"

/-- One iteration of the CRC-32 table construction from `crc32PNG`. -/
def crcStep (c : Nat) : Nat := if c % 2 = 1 then 3988292384 ^^^ (c / 2) else c / 2

/-- One entry of the CRC-32 table (eight halving steps, reversed polynomial
0xEDB88320). -/
def crcEntry (i : Nat) : Nat :=
  crcStep (crcStep (crcStep (crcStep (crcStep (crcStep (crcStep (crcStep i)))))))

/-- The 256-entry CRC table that `crc32PNG` builds on every call. -/
def crcTable : List Nat := (List.range 256).map crcEntry

/-- Embedding of `crc32PNG`: table-driven CRC-32 with initial and final XOR
with all ones; `& 0xFF` is `% 256` and `>> 8` is `/ 256` on a `uint32`. -/
def crc32PNG (data : List Nat) : Nat :=
  (data.foldl (fun crc b => (crcTable.getD ((crc ^^^ b) % 256) 0) ^^^ (crc / 256))
    4294967295) ^^^ 4294967295

/-- Big-endian 4-byte encoding; the `uint32` cast of the source is absorbed
by the `% 256` of each extracted byte. -/
def beBytes4 (n : Nat) : List Nat :=
  [n / 16777216 % 256, n / 65536 % 256, n / 256 % 256, n % 256]

/-- Value of a big-endian byte list. -/
def beToNat (bs : List Nat) : Nat := bs.foldl (fun acc b => acc * 256 + b) 0

/-- Embedding of `writeChunk`: 4-byte big-endian length, type, data, and
CRC-32 over `type || data`. -/
def writeChunk (c : Chunk) : List Nat :=
  beBytes4 c.data.length ++ (c.ty ++ (c.data ++ beBytes4 (crc32PNG (c.ty ++ c.data))))

/-- Serialization of a chunk sequence. -/
def serializeChunks : List Chunk → List Nat
  | [] => []
  | c :: cs => writeChunk c ++ serializeChunks cs

/-- Well-formedness of a chunk as a unit of the container format: a 4-byte
type tag, byte-valued contents, and data that fits the 4-byte length field. -/
def ChunkWF (c : Chunk) : Prop :=
  c.ty.length = 4 ∧ (∀ b ∈ c.ty, b < 256) ∧ (∀ b ∈ c.data, b < 256) ∧
    c.data.length < 4294967296

instance : DecidablePred ChunkWF := fun c => by
  unfold ChunkWF
  infer_instance

/-- Chunk-framing loop of the parser: length, type, data, CRC, repeat.  The
fuel argument only bounds the number of chunks; `parseChunksFuel bs.length
bs` is total (every chunk consumes at least 12 bytes). -/
def parseChunksFuel : Nat → List Nat → Option (List Chunk)
  | 0, bs => if bs = [] then some [] else none
  | fuel + 1, bs =>
    if bs = [] then some []
    else if 12 + beToNat (bs.take 4) ≤ bs.length then
      match parseChunksFuel fuel (bs.drop (12 + beToNat (bs.take 4))) with
      | some cs =>
        some (⟨(bs.drop 4).take 4, (bs.drop 8).take (beToNat (bs.take 4))⟩ :: cs)
      | none => none
    else none

/-- The parse operation of the chunk codec (see the section comment). -/
def ParseBytes (bs : List Nat) : Except PngError (List Chunk) :=
  if ¬(∀ b ∈ bs, b < 256) then
    .error (.data "failed to parse PNG structure: not a byte stream")
  else if ¬(bs.take 8 = pngSignature) then
    .error (.data "failed to parse PNG structure: signature")
  else
    match parseChunksFuel (bs.drop 8).length (bs.drop 8) with
    | none => .error (.data "failed to parse PNG structure: chunk framing")
    | some chunks =>
      match chunks.getLast? with
      | none => .error (.data "failed to parse PNG structure: no terminal chunk")
      | some last =>
        if last.ty = iendType ∧
            chunks.countP (fun c => decide (c.ty = iendType)) = 1 then
          .ok chunks
        else .error (.data "failed to parse PNG structure: terminal chunk")

theorem beToNat_beBytes4 (n : Nat) (h : n < 4294967296) : beToNat (beBytes4 n) = n := by
  simp only [beToNat, beBytes4, List.foldl_cons, List.foldl_nil]
  omega

theorem beBytes4_length (n : Nat) : (beBytes4 n).length = 4 := rfl

theorem beBytes4_bytes_lt (n : Nat) : ∀ b ∈ beBytes4 n, b < 256 := by
  intro b hb
  simp only [beBytes4, List.mem_cons, List.not_mem_nil, or_false] at hb
  rcases hb with rfl | rfl | rfl | rfl
  · omega
  · omega
  · omega
  · omega

theorem writeChunk_length (c : Chunk) (h4 : c.ty.length = 4) :
    (writeChunk c).length = 12 + c.data.length := by
  simp only [writeChunk, List.length_append, beBytes4_length, h4]
  omega

theorem writeChunk_ne_nil (c : Chunk) : writeChunk c ≠ [] := by
  unfold writeChunk beBytes4
  simp

theorem writeChunk_bytes_lt (c : Chunk) (hwf : ChunkWF c) :
    ∀ b ∈ writeChunk c, b < 256 := by
  obtain ⟨h4, hty, hdata, hlen⟩ := hwf
  intro b hb
  simp only [writeChunk, List.mem_append] at hb
  rcases hb with hb | hb | hb | hb
  · exact beBytes4_bytes_lt _ b hb
  · exact hty b hb
  · exact hdata b hb
  · exact beBytes4_bytes_lt _ b hb

theorem serializeChunks_bytes_lt (cs : List Chunk) (hwf : ∀ c ∈ cs, ChunkWF c) :
    ∀ b ∈ serializeChunks cs, b < 256 := by
  induction cs with
  | nil => simp [serializeChunks]
  | cons c cs ih =>
    intro b hb
    simp only [serializeChunks, List.mem_append] at hb
    rcases hb with hb | hb
    · exact writeChunk_bytes_lt c (hwf c (by simp)) b hb
    · exact ih (fun x hx => hwf x (by simp [hx])) b hb

/-- Parsing inverts serialization of well-formed chunks, given enough fuel. -/
theorem parseChunksFuel_serialize (cs : List Chunk) (hwf : ∀ c ∈ cs, ChunkWF c) :
    ∀ fuel, (serializeChunks cs).length ≤ fuel →
      parseChunksFuel fuel (serializeChunks cs) = some cs := by
  induction cs with
  | nil =>
    intro fuel _
    cases fuel <;> simp [parseChunksFuel, serializeChunks]
  | cons c cs ih =>
    intro fuel hf
    obtain ⟨h4, hty, hdata, hlen⟩ := hwf c (by simp)
    have hwlen : (writeChunk c).length = 12 + c.data.length := writeChunk_length c h4
    have hslen : (serializeChunks (c :: cs)).length =
        12 + c.data.length + (serializeChunks cs).length := by
      simp only [serializeChunks, List.length_append, hwlen]
    match fuel with
    | 0 =>
      exact absurd hf (by rw [hslen] at *; omega)
    | f + 1 =>
      have hne : writeChunk c ++ serializeChunks cs ≠ [] := by
        intro hcon
        have := congrArg List.length hcon
        simp only [List.length_append, hwlen, List.length_nil] at this
        omega
      have e1 : writeChunk c ++ serializeChunks cs =
          beBytes4 c.data.length ++ (c.ty ++ (c.data ++
            (beBytes4 (crc32PNG (c.ty ++ c.data)) ++ serializeChunks cs))) := by
        simp [writeChunk, List.append_assoc]
      have e2 : writeChunk c ++ serializeChunks cs =
          (beBytes4 c.data.length ++ c.ty) ++ (c.data ++
            (beBytes4 (crc32PNG (c.ty ++ c.data)) ++ serializeChunks cs)) := by
        simp [writeChunk, List.append_assoc]
      have e3 : writeChunk c ++ serializeChunks cs =
          (beBytes4 c.data.length ++ (c.ty ++ (c.data ++
            beBytes4 (crc32PNG (c.ty ++ c.data))))) ++ serializeChunks cs := rfl
      have hfulllen : (writeChunk c ++ serializeChunks cs).length =
          12 + c.data.length + (serializeChunks cs).length := by
        simp only [List.length_append, hwlen]
      have htake4 : (writeChunk c ++ serializeChunks cs).take 4 = beBytes4 c.data.length := by
        rw [e1]
        exact List.take_left' (beBytes4_length _)
      have hdrop4 : (writeChunk c ++ serializeChunks cs).drop 4 =
          c.ty ++ (c.data ++ (beBytes4 (crc32PNG (c.ty ++ c.data)) ++ serializeChunks cs)) := by
        rw [e1]
        exact List.drop_left' (beBytes4_length _)
      have hty4 : ((writeChunk c ++ serializeChunks cs).drop 4).take 4 = c.ty := by
        rw [hdrop4]
        exact List.take_left' h4
      have hdrop8 : (writeChunk c ++ serializeChunks cs).drop 8 =
          c.data ++ (beBytes4 (crc32PNG (c.ty ++ c.data)) ++ serializeChunks cs) := by
        rw [e2]
        exact List.drop_left' (by simp [beBytes4_length, h4])
      have hdata8 : ((writeChunk c ++ serializeChunks cs).drop 8).take c.data.length =
          c.data := by
        rw [hdrop8]
        exact List.take_left _ _
      have hdrop12 : (writeChunk c ++ serializeChunks cs).drop (12 + c.data.length) =
          serializeChunks cs := by
        rw [e3]
        exact List.drop_left' hwlen
      show parseChunksFuel (f + 1) (writeChunk c ++ serializeChunks cs) = some (c :: cs)
      simp only [parseChunksFuel, if_neg hne]
      rw [htake4, beToNat_beBytes4 c.data.length hlen]
      rw [if_pos (by rw [hfulllen]; omega)]
      rw [hdrop12, ih (fun x hx => hwf x (by simp [hx])) f (by rw [hslen] at hf; omega)]
      rw [hty4, hdata8]

theorem beToNat_lt (l : List Nat) (h4 : l.length ≤ 4) (hb : ∀ b ∈ l, b < 256) :
    beToNat l < 4294967296 := by
  match l with
  | [] => simp [beToNat]
  | [a] =>
    have ha := hb a (by simp)
    simp only [beToNat, List.foldl_cons, List.foldl_nil]
    omega
  | [a, b] =>
    have ha := hb a (by simp)
    have hb2 := hb b (by simp)
    simp only [beToNat, List.foldl_cons, List.foldl_nil]
    omega
  | [a, b, c] =>
    have ha := hb a (by simp)
    have hb2 := hb b (by simp)
    have hc := hb c (by simp)
    simp only [beToNat, List.foldl_cons, List.foldl_nil]
    omega
  | [a, b, c, d] =>
    have ha := hb a (by simp)
    have hb2 := hb b (by simp)
    have hc := hb c (by simp)
    have hd := hb d (by simp)
    simp only [beToNat, List.foldl_cons, List.foldl_nil]
    omega
  | a :: b :: c :: d :: e :: rest =>
    exact absurd h4 (by simp)

/-- Chunks produced by the framing loop on a byte stream are well-formed. -/
theorem parseChunksFuel_wf : ∀ fuel bs, (∀ b ∈ bs, b < 256) →
    ∀ cs, parseChunksFuel fuel bs = some cs → ∀ c ∈ cs, ChunkWF c := by
  intro fuel
  induction fuel with
  | zero =>
    intro bs hb cs h c hc
    unfold parseChunksFuel at h
    by_cases hbs : bs = []
    · rw [if_pos hbs] at h
      simp only [Option.some.injEq] at h
      subst h
      simp at hc
    · rw [if_neg hbs] at h
      cases h
  | succ f ih =>
    intro bs hb cs h c hc
    by_cases hbs : bs = []
    · unfold parseChunksFuel at h
      rw [if_pos hbs] at h
      simp only [Option.some.injEq] at h
      subst h
      simp at hc
    · unfold parseChunksFuel at h
      rw [if_neg hbs] at h
      by_cases hcond : 12 + beToNat (bs.take 4) ≤ bs.length
      · rw [if_pos hcond] at h
        cases hrec : parseChunksFuel f (bs.drop (12 + beToNat (bs.take 4))) with
        | none => rw [hrec] at h; cases h
        | some cs' =>
          rw [hrec] at h
          simp only [Option.some.injEq] at h
          subst h
          have hlenlt : beToNat (bs.take 4) < 4294967296 :=
            beToNat_lt (bs.take 4) (by simp) (fun b hbm => hb b ((List.take_sublist 4 bs).mem hbm))
          simp only [List.mem_cons] at hc
          rcases hc with rfl | hc
          · refine ⟨?_, ?_, ?_, ?_⟩
            · simp only [List.length_take, List.length_drop]
              omega
            · intro b hbm
              exact hb b ((List.drop_sublist 4 bs).mem ((List.take_sublist 4 (bs.drop 4)).mem hbm))
            · intro b hbm
              exact hb b ((List.drop_sublist 8 bs).mem
                ((List.take_sublist (beToNat (bs.take 4)) (bs.drop 8)).mem hbm))
            · simp only [List.length_take, List.length_drop]
              omega
          · exact ih (bs.drop (12 + beToNat (bs.take 4)))
              (fun b hbm => hb b ((List.drop_sublist _ bs).mem hbm)) cs' hrec c hc
      · rw [if_neg hcond] at h
        cases h

/-- Everything `ParseBytes` accepts satisfies the container invariants:
well-formed chunks and exactly one terminal chunk, in last position. -/
theorem ParseBytes_ok_inv (bs : List Nat) (chunks : List Chunk)
    (h : ParseBytes bs = .ok chunks) :
    (∀ c ∈ chunks, ChunkWF c) ∧
    (∃ last, chunks.getLast? = some last ∧ last.ty = iendType) ∧
    chunks.countP (fun c => decide (c.ty = iendType)) = 1 := by
  unfold ParseBytes at h
  by_cases hbytes : ∀ b ∈ bs, b < 256
  · rw [if_neg (not_not_intro hbytes)] at h
    by_cases hsig : bs.take 8 = pngSignature
    · rw [if_neg (not_not_intro hsig)] at h
      cases hloop : parseChunksFuel (bs.drop 8).length (bs.drop 8) with
      | none => rw [hloop] at h; cases h
      | some cs' =>
        rw [hloop] at h
        dsimp only at h
        cases hlast : cs'.getLast? with
        | none => rw [hlast] at h; cases h
        | some last =>
          rw [hlast] at h
          dsimp only at h
          by_cases hcond : last.ty = iendType ∧
              cs'.countP (fun c => decide (c.ty = iendType)) = 1
          · rw [if_pos hcond] at h
            simp only [Except.ok.injEq] at h
            subst h
            exact ⟨parseChunksFuel_wf _ _ (fun b hbm => hbytes b ((List.drop_sublist 8 bs).mem hbm))
              _ hloop, ⟨last, hlast, hcond.1⟩, hcond.2⟩
          · rw [if_neg hcond] at h
            cases h
    · rw [if_pos hsig] at h
      cases h
  · rw [if_pos hbytes] at h
    cases h

/-- Serializing chunks that satisfy the container invariants yields a stream
`ParseBytes` accepts, recovering exactly those chunks. -/
theorem ParseBytes_serialize (chunks : List Chunk) (hwf : ∀ c ∈ chunks, ChunkWF c)
    (last : Chunk) (hlast : chunks.getLast? = some last) (hlty : last.ty = iendType)
    (hcount : chunks.countP (fun c => decide (c.ty = iendType)) = 1) :
    ParseBytes (pngSignature ++ serializeChunks chunks) = .ok chunks := by
  have hbytes : ∀ b ∈ pngSignature ++ serializeChunks chunks, b < 256 := by
    intro b hbm
    simp only [List.mem_append] at hbm
    rcases hbm with hbm | hbm
    · simp only [pngSignature, List.mem_cons, List.not_mem_nil, or_false] at hbm
      rcases hbm with rfl | rfl | rfl | rfl | rfl | rfl | rfl | rfl <;> omega
    · exact serializeChunks_bytes_lt chunks hwf b hbm
  have hsig : (pngSignature ++ serializeChunks chunks).take 8 = pngSignature :=
    List.take_left' rfl
  have hdrop : (pngSignature ++ serializeChunks chunks).drop 8 = serializeChunks chunks :=
    List.drop_left' rfl
  unfold ParseBytes
  rw [if_neg (not_not_intro hbytes), if_neg (not_not_intro hsig), hdrop,
    parseChunksFuel_serialize chunks hwf _ (le_refl _)]
  dsimp only
  rw [hlast]
  dsimp only
  rw [if_pos ⟨hlty, hcount⟩]

/-! ### The comment manager (`PNGMetaManager`) -/

/-- Position of the first zero byte, as `bytes.IndexByte(textData, 0)`. -/
def firstNullIndex : List Nat → Option Nat
  | [] => none
  | b :: rest => if b = 0 then some 0 else (firstNullIndex rest).map (fun i => i + 1)

/-- Split a `tEXt` payload at its first null separator into keyword and text
(`none` when there is no null byte, in which case the scanner skips the
chunk). -/
def splitTextChunk (data : List Nat) : Option (List Nat × List Nat) :=
  match firstNullIndex data with
  | none => none
  | some i => some (data.take i, data.drop (i + 1))

/-- The removal condition of `WriteCommentString`: a `tEXt` chunk whose
keyword (payload up to the first null byte) is `LightFile`. -/
def isLightFileTextChunk (c : Chunk) : Bool :=
  decide (c.ty = tEXtType) &&
    match splitTextChunk c.data with
    | some p => decide (p.1 = lightFileKeyword)
    | none => false

/-- The scanning loop of `ReadComment`: the text of the first `tEXt` chunk
whose keyword is `LightFile`. -/
def findLightFileText : List Chunk → Option (List Nat)
  | [] => none
  | c :: rest =>
    if c.ty = tEXtType then
      match splitTextChunk c.data with
      | some p => if p.1 = lightFileKeyword then some p.2 else findLightFileText rest
      | none => findLightFileText rest
    else findLightFileText rest

/-- Embedding of `PNGMetaManager.ReadComment`: parse the container, scan for
the first `LightFile` `tEXt` chunk, and try to decode its text as JSON;
malformed JSON yields the raw text with no error, and absence yields
neither. -/
def ReadComment (data : List Nat) :
    Except PngError (Option LightFileComment × List Nat) :=
  match ParseBytes data with
  | .error e => .error e
  | .ok chunks =>
    match findLightFileText chunks with
    | none => .ok (none, [])
    | some text =>
      match unmarshalComment text with
      | none => .ok (none, text)
      | some c => .ok (some c, text)

/-- Embedding of `PNGMetaManager.BuildComment`: the JSON text plus the byte
cost of embedding it, `4 + 4 + len(keyword) + 1 + 4 = 22` bytes of chunk
overhead on top of the payload. -/
def BuildComment (c : LightFileComment) : Except PngError (List Nat × Nat) :=
  match marshalComment c with
  | none => .error (.data "failed to marshal comment to JSON")
  | some js => .ok (js, 22 + js.length)

/-- The new `tEXt` chunk `WriteCommentString` builds: keyword, null
separator, comment text. -/
def mkLightFileTextChunk (comment : List Nat) : Chunk :=
  ⟨tEXtType, lightFileKeyword ++ 0 :: comment⟩

/-- The insertion loop of `WriteCommentString`: insert the new chunk
immediately before the first `IEND` chunk, or fail when there is none. -/
def insertBeforeIEND (newChunk : Chunk) : List Chunk → Option (List Chunk)
  | [] => none
  | c :: rest =>
    if c.ty = iendType then some (newChunk :: c :: rest)
    else
      match insertBeforeIEND newChunk rest with
      | some cs => some (c :: cs)
      | none => none

/-- Embedding of `PNGMetaManager.WriteCommentString`: parse, remove every
existing `LightFile` `tEXt` chunk, insert the new chunk before `IEND`, and
re-serialize with the original signature. -/
def WriteCommentString (data : List Nat) (comment : List Nat) :
    Except PngError (List Nat) :=
  match ParseBytes data with
  | .error e => .error e
  | .ok chunks =>
    match insertBeforeIEND (mkLightFileTextChunk comment)
        (chunks.filter (fun c => !(isLightFileTextChunk c))) with
    | none => .error (.data "png file missing IEND chunk")
    | some finalChunks => .ok (pngSignature ++ serializeChunks finalChunks)

/-- Embedding of `PNGMetaManager.WriteComment`: build the JSON and delegate
to `WriteCommentString`. -/
def WriteComment (data : List Nat) (c : LightFileComment) :
    Except PngError (List Nat) :=
  match BuildComment c with
  | .error e => .error e
  | .ok p => WriteCommentString data p.1

theorem firstNullIndex_keyword (kw text : List Nat) (hkw : ∀ b ∈ kw, ¬(b = 0)) :
    firstNullIndex (kw ++ 0 :: text) = some kw.length := by
  induction kw with
  | nil => simp [firstNullIndex]
  | cons b bs ih =>
    have hb : ¬(b = 0) := hkw b (by simp)
    simp only [List.cons_append, firstNullIndex, if_neg hb, List.append_eq]
    rw [ih (fun x hx => hkw x (by simp [hx]))]
    simp

theorem splitTextChunk_keyword (kw text : List Nat) (hkw : ∀ b ∈ kw, ¬(b = 0)) :
    splitTextChunk (kw ++ 0 :: text) = some (kw, text) := by
  unfold splitTextChunk
  rw [firstNullIndex_keyword kw text hkw]
  dsimp only
  have ht : (kw ++ 0 :: text).take kw.length = kw := List.take_left kw _
  have hd : (kw ++ 0 :: text).drop (kw.length + 1) = text := by
    have : kw ++ 0 :: text = (kw ++ [0]) ++ text := by simp
    rw [this]
    exact List.drop_left' (by simp)
  rw [ht, hd]

theorem lightFileKeyword_no_null : ∀ b ∈ lightFileKeyword, ¬(b = 0) := by
  decide

theorem mkLightFileTextChunk_isLF (text : List Nat) :
    isLightFileTextChunk (mkLightFileTextChunk text) = true := by
  unfold isLightFileTextChunk mkLightFileTextChunk
  rw [splitTextChunk_keyword _ _ lightFileKeyword_no_null]
  simp

theorem mkLightFileTextChunk_wf (text : List Nat) (hbytes : ∀ b ∈ text, b < 256)
    (hlen : text.length + 10 < 4294967296) : ChunkWF (mkLightFileTextChunk text) := by
  unfold ChunkWF
  refine ⟨?_, ?_, ?_, ?_⟩
  · show tEXtType.length = 4
    decide
  · show ∀ b ∈ tEXtType, b < 256
    decide
  · intro b hb
    simp only [mkLightFileTextChunk, List.mem_append, List.mem_cons] at hb
    rcases hb with hb | rfl | hb
    · have : ∀ b ∈ lightFileKeyword, b < 256 := by decide
      exact this b hb
    · omega
    · exact hbytes b hb
  · simp only [mkLightFileTextChunk, List.length_append, List.length_cons]
    have : lightFileKeyword.length = 9 := by decide
    omega

theorem insertBeforeIEND_concat (newChunk iend : Chunk) (pre : List Chunk)
    (hpre : ∀ c ∈ pre, ¬(c.ty = iendType)) (hiend : iend.ty = iendType) :
    insertBeforeIEND newChunk (pre ++ [iend]) = some (pre ++ [newChunk, iend]) := by
  induction pre with
  | nil =>
    simp only [List.nil_append, insertBeforeIEND, if_pos hiend]
  | cons c cs ih =>
    have hc : ¬(c.ty = iendType) := hpre c (by simp)
    simp only [List.cons_append, insertBeforeIEND, if_neg hc, List.append_eq]
    rw [ih (fun x hx => hpre x (by simp [hx]))]

theorem findLightFileText_skip (pre rest : List Chunk)
    (hpre : ∀ c ∈ pre, isLightFileTextChunk c = false) :
    findLightFileText (pre ++ rest) = findLightFileText rest := by
  induction pre with
  | nil => simp
  | cons c cs ih =>
    have hc := hpre c (by simp)
    have ihe := ih (fun x hx => hpre x (by simp [hx]))
    simp only [List.cons_append, findLightFileText]
    by_cases hty : c.ty = tEXtType
    · rw [if_pos hty]
      cases hsplit : splitTextChunk c.data with
      | none => exact ihe
      | some p =>
        have hkw : ¬(p.1 = lightFileKeyword) := by
          intro hcon
          unfold isLightFileTextChunk at hc
          rw [hsplit] at hc
          simp [hty, hcon] at hc
        dsimp only
        rw [if_neg hkw]
        exact ihe
    · rw [if_neg hty]
      exact ihe

theorem findLightFileText_hit (text : List Nat) (rest : List Chunk) :
    findLightFileText (mkLightFileTextChunk text :: rest) = some text := by
  unfold findLightFileText mkLightFileTextChunk
  rw [if_pos (show tEXtType = tEXtType from rfl)]
  rw [splitTextChunk_keyword _ _ lightFileKeyword_no_null]
  dsimp only
  rw [if_pos rfl]

theorem isLightFileTextChunk_ty {c : Chunk} (h : isLightFileTextChunk c = true) :
    c.ty = tEXtType := by
  unfold isLightFileTextChunk at h
  rw [Bool.and_eq_true] at h
  exact of_decide_eq_true h.1

theorem iend_not_LF {c : Chunk} (h : c.ty = iendType) :
    isLightFileTextChunk c = false := by
  cases hLF : isLightFileTextChunk c with
  | false => rfl
  | true =>
    have := isLightFileTextChunk_ty hLF
    rw [h] at this
    exact absurd this (by decide)

/-- Core behaviour of `WriteCommentString` on a parseable container: the
result re-serializes the old chunks with every `LightFile` `tEXt` chunk
removed and exactly one new one inserted immediately before the terminal
chunk, and the result parses back. -/
theorem writeCommentString_ok (data text : List Nat) (chunks : List Chunk)
    (hparse : ParseBytes data = .ok chunks)
    (hbytes : ∀ b ∈ text, b < 256) (hlen : text.length + 10 < 4294967296) :
    ∃ iend pre,
      chunks.getLast? = some iend ∧ iend.ty = iendType ∧
      pre = chunks.dropLast.filter (fun c => !(isLightFileTextChunk c)) ∧
      WriteCommentString data text =
        .ok (pngSignature ++ serializeChunks (pre ++ [mkLightFileTextChunk text, iend])) ∧
      ParseBytes (pngSignature ++ serializeChunks (pre ++ [mkLightFileTextChunk text, iend])) =
        .ok (pre ++ [mkLightFileTextChunk text, iend]) ∧
      (pre ++ [mkLightFileTextChunk text, iend]).countP
        (fun c => isLightFileTextChunk c) = 1 ∧
      (∀ c ∈ pre, isLightFileTextChunk c = false) := by
  obtain ⟨hwf, ⟨last, hlast, hlty⟩, hcount⟩ := ParseBytes_ok_inv data chunks hparse
  have hne : chunks ≠ [] := by
    intro hcon
    rw [hcon] at hlast
    cases hlast
  have hgl : chunks.getLast hne = last := by
    have := List.getLast?_eq_getLast chunks hne
    rw [this] at hlast
    exact (Option.some.injEq _ _).mp hlast
  have hsplitL : chunks.dropLast ++ [last] = chunks := by
    rw [← hgl]
    exact List.dropLast_append_getLast hne
  have hcount0 : chunks.dropLast.countP (fun c => decide (c.ty = iendType)) = 0 := by
    have h1 : (chunks.dropLast ++ [last]).countP (fun c => decide (c.ty = iendType)) = 1 := by
      rw [hsplitL]
      exact hcount
    rw [List.countP_append] at h1
    have h2 : List.countP (fun c => decide (c.ty = iendType)) [last] = 1 := by
      simp [List.countP, List.countP.go, hlty]
    omega
  have hnoiend : ∀ c ∈ chunks.dropLast, ¬(c.ty = iendType) := by
    intro c hc hcon
    have := List.countP_eq_zero.mp hcount0 c hc
    simp [hcon] at this
  have hfiltered : chunks.filter (fun c => !(isLightFileTextChunk c)) =
      chunks.dropLast.filter (fun c => !(isLightFileTextChunk c)) ++ [last] := by
    nth_rewrite 1 [← hsplitL]
    rw [List.filter_append]
    congr 1
    rw [List.filter_cons_of_pos (by simp [iend_not_LF hlty])]
    rfl
  set pre := chunks.dropLast.filter (fun c => !(isLightFileTextChunk c)) with hpre
  have hpreLF : ∀ c ∈ pre, isLightFileTextChunk c = false := by
    intro c hc
    rw [hpre] at hc
    have := List.of_mem_filter hc
    simpa using this
  have hpre_noiend : ∀ c ∈ pre, ¬(c.ty = iendType) := by
    intro c hc
    exact hnoiend c (List.mem_of_mem_filter hc)
  have hinsert : insertBeforeIEND (mkLightFileTextChunk text)
      (chunks.filter (fun c => !(isLightFileTextChunk c))) =
      some (pre ++ [mkLightFileTextChunk text, last]) := by
    rw [hfiltered]
    exact insertBeforeIEND_concat (mkLightFileTextChunk text) last pre hpre_noiend hlty
  have hwcs : WriteCommentString data text =
      .ok (pngSignature ++ serializeChunks (pre ++ [mkLightFileTextChunk text, last])) := by
    unfold WriteCommentString
    rw [hparse]
    dsimp only
    rw [hinsert]
  have hwf' : ∀ c ∈ pre ++ [mkLightFileTextChunk text, last], ChunkWF c := by
    intro c hc
    simp only [List.mem_append, List.mem_cons, List.not_mem_nil, or_false] at hc
    rcases hc with hc | hc | hc
    · exact hwf c ((List.dropLast_sublist chunks).mem (List.mem_of_mem_filter hc))
    · exact hc ▸ mkLightFileTextChunk_wf text hbytes hlen
    · subst hc
      exact hwf c (by rw [← hsplitL]; simp)
  have hlast' : (pre ++ [mkLightFileTextChunk text, last]).getLast? = some last := by
    have : pre ++ [mkLightFileTextChunk text, last] =
        (pre ++ [mkLightFileTextChunk text]) ++ [last] := by simp
    rw [this]
    exact List.getLast?_concat _
  have hcount' : (pre ++ [mkLightFileTextChunk text, last]).countP
      (fun c => decide (c.ty = iendType)) = 1 := by
    rw [List.countP_append]
    have h0 : pre.countP (fun c => decide (c.ty = iendType)) = 0 := by
      apply List.countP_eq_zero.mpr
      intro c hc
      simp [hpre_noiend c hc]
    have h1 : List.countP (fun c => decide (c.ty = iendType))
        [mkLightFileTextChunk text, last] = 1 := by
      have hne2 : ¬(tEXtType = iendType) := by decide
      simp [List.countP, List.countP.go, hlty, mkLightFileTextChunk, hne2]
    omega
  have hparse' : ParseBytes (pngSignature ++
      serializeChunks (pre ++ [mkLightFileTextChunk text, last])) =
      .ok (pre ++ [mkLightFileTextChunk text, last]) :=
    ParseBytes_serialize _ hwf' last hlast' hlty hcount'
  have hcountLF : (pre ++ [mkLightFileTextChunk text, last]).countP
      (fun c => isLightFileTextChunk c) = 1 := by
    rw [List.countP_append]
    have h0 : pre.countP (fun c => isLightFileTextChunk c) = 0 := by
      apply List.countP_eq_zero.mpr
      intro c hc
      simp [hpreLF c hc]
    have h1 : List.countP (fun c => isLightFileTextChunk c)
        [mkLightFileTextChunk text, last] = 1 := by
      simp [List.countP, List.countP.go, mkLightFileTextChunk_isLF, iend_not_LF hlty]
    omega
  exact ⟨last, pre, hlast, hlty, hpre, hwcs, hparse', hcountLF, hpreLF⟩

theorem getLast?_mem {α : Type} {l : List α} {a : α} (h : l.getLast? = some a) : a ∈ l := by
  obtain ⟨hne, heq⟩ := List.mem_getLast?_eq_getLast (show a ∈ l.getLast? by
    rw [Option.mem_def]; exact h)
  rw [heq]
  exact List.getLast_mem hne

/-- C6.  On a parseable container, `WriteCommentString` removes every
existing `LightFile` `tEXt` chunk and inserts exactly one new one
immediately before the terminal chunk, so the output carries exactly one
`LightFile` comment chunk; on a container with no terminal chunk it fails
with a data error. -/
theorem writeCommentString_spec :
    (∀ data text chunks, ParseBytes data = .ok chunks → (∀ b ∈ text, b < 256) →
      text.length + 10 < 4294967296 →
      ∃ out cs' pre iend, WriteCommentString data text = .ok out ∧
        ParseBytes out = .ok cs' ∧
        pre = chunks.dropLast.filter (fun c => !(isLightFileTextChunk c)) ∧
        cs' = pre ++ [mkLightFileTextChunk text, iend] ∧
        iend.ty = iendType ∧ chunks.getLast? = some iend ∧
        cs'.countP (fun c => isLightFileTextChunk c) = 1) ∧
    (∀ chunks text, (∀ c ∈ chunks, ChunkWF c) → (∀ c ∈ chunks, ¬(c.ty = iendType)) →
      ∃ e, WriteCommentString (pngSignature ++ serializeChunks chunks) text = .error e ∧
        e.isData = true) := by
  constructor
  · intro data text chunks hparse hbytes hlen
    obtain ⟨iend, pre, hlast, hlty, hpre, hwcs, hparse', hcountLF, hpreLF⟩ :=
      writeCommentString_ok data text chunks hparse hbytes hlen
    exact ⟨_, _, pre, iend, hwcs, hparse', hpre, rfl, hlty, hlast, hcountLF⟩
  · intro chunks text hwf hno
    have hbytes : ∀ b ∈ pngSignature ++ serializeChunks chunks, b < 256 := by
      intro b hbm
      simp only [List.mem_append] at hbm
      rcases hbm with hbm | hbm
      · simp only [pngSignature, List.mem_cons, List.not_mem_nil, or_false] at hbm
        rcases hbm with rfl | rfl | rfl | rfl | rfl | rfl | rfl | rfl <;> omega
      · exact serializeChunks_bytes_lt chunks hwf b hbm
    have hsig : (pngSignature ++ serializeChunks chunks).take 8 = pngSignature :=
      List.take_left' rfl
    have hdrop : (pngSignature ++ serializeChunks chunks).drop 8 = serializeChunks chunks :=
      List.drop_left' rfl
    unfold WriteCommentString ParseBytes
    rw [if_neg (not_not_intro hbytes), if_neg (not_not_intro hsig), hdrop,
      parseChunksFuel_serialize chunks hwf _ (le_refl _)]
    dsimp only
    cases hlast : chunks.getLast? with
    | none =>
      exact ⟨PngError.data "failed to parse PNG structure: no terminal chunk", rfl, rfl⟩
    | some l =>
      have hl : l ∈ chunks := getLast?_mem hlast
      dsimp only
      rw [if_neg (by intro hcon; exact hno l hl hcon.1)]
      exact ⟨PngError.data "failed to parse PNG structure: terminal chunk", rfl, rfl⟩

theorem encInt_bytes_lt (i : Int) : ∀ b ∈ encInt i, b < 256 := by
  intro b hb
  unfold encInt at hb
  split at hb
  · simp only [List.mem_cons] at hb
    rcases hb with rfl | hb
    · omega
    · have := encNat_digits i.natAbs b hb
      omega
  · have := encNat_digits i.toNat b hb
    omega

theorem marshalled_psnr_bytes_lt (m : MaybeInf) (ps : List Nat)
    (hm : MaybeInf.MarshalJSON m = some ps) : ∀ b ∈ ps, b < 256 := by
  intro b hb
  cases m with
  | posInf =>
    simp only [MaybeInf.MarshalJSON, Option.some.injEq] at hm
    subst hm
    simp [asciiBytes] at hb
    omega
  | negInf =>
    simp only [MaybeInf.MarshalJSON, Option.some.injEq] at hm
    subst hm
    simp [asciiBytes] at hb
    omega
  | nan => cases hm
  | finite q =>
    simp only [MaybeInf.MarshalJSON, Option.some.injEq] at hm
    subst hm
    simp only [encRat, List.mem_append, List.mem_singleton] at hb
    rcases hb with (hb | rfl) | hb
    · exact encInt_bytes_lt q.num b hb
    · omega
    · have := encNat_digits q.den b hb
      omega

theorem marshalComment_bytes_lt (c : LightFileComment) (js : List Nat)
    (hm : marshalComment c = some js) : ∀ b ∈ js, b < 256 := by
  unfold marshalComment at hm
  cases hps : MaybeInf.MarshalJSON c.PSNR with
  | none =>
    rw [hps] at hm
    cases hm
  | some ps =>
    rw [hps] at hm
    simp only [Option.some.injEq] at hm
    subst hm
    intro b hb
    simp only [List.mem_append] at hb
    have htok : ∀ s : String, s.data.all (fun ch => ch.toNat < 256) = true →
        ∀ b2 ∈ asciiBytes s, b2 < 256 := by
      intro s hs b2 hb2
      simp only [asciiBytes, List.mem_map] at hb2
      obtain ⟨ch, hch, rfl⟩ := hb2
      have := List.all_eq_true.mp hs ch hch
      simpa using this
    rcases hb with (((((((((hb | hb) | hb) | hb) | hb) | hb) | hb) | hb) | hb) | hb) | hb
    · exact htok _ (by decide) b hb
    · simp only [encString, List.mem_cons, List.mem_append, List.mem_singleton] at hb
      rcases hb with rfl | hb | rfl | h0
      · omega
      · exact encCharList_bytes_lt c.By.data b hb
      · omega
      · cases h0
    · exact htok _ (by decide) b hb
    · exact encInt_bytes_lt c.Before b hb
    · exact htok _ (by decide) b hb
    · exact encInt_bytes_lt c.After b hb
    · exact htok _ (by decide) b hb
    · unfold encBool at hb
      split at hb <;> (simp [asciiBytes] at hb; omega)
    · exact htok _ (by decide) b hb
    · exact marshalled_psnr_bytes_lt c.PSNR ps hps b hb
    · simp [asciiBytes] at hb
      omega

/-- C5.  On every parseable container, writing a `LightFileComment` whose
score is finite or positive-infinite with `WriteComment` and reading it back
with `ReadComment` recovers the identical record (all five fields); the
serialized comment is assumed to fit the container's 4-byte chunk length
field, which the format itself imposes. -/
theorem writeComment_readComment_roundtrip (data : List Nat) (chunks : List Chunk)
    (c : LightFileComment) (js : List Nat)
    (hparse : ParseBytes data = .ok chunks)
    (hpsnr : c.PSNR = .posInf ∨ ∃ q, c.PSNR = .finite q)
    (hjs : marshalComment c = some js)
    (hsize : js.length + 10 < 4294967296) :
    ∃ out, WriteComment data c = .ok out ∧ ReadComment out = .ok (some c, js) := by
  have hneg : c.PSNR ≠ .negInf := by
    rcases hpsnr with h | ⟨q, h⟩ <;> (rw [h]; intro hcon; cases hcon)
  have hjsb : ∀ b ∈ js, b < 256 := marshalComment_bytes_lt c js hjs
  obtain ⟨iend, pre, hlast, hlty, hpre, hwcs, hparse', hcountLF, hpreLF⟩ :=
    writeCommentString_ok data js chunks hparse hjsb hsize
  have hwc : WriteComment data c = WriteCommentString data js := by
    unfold WriteComment BuildComment
    rw [hjs]
  refine ⟨pngSignature ++ serializeChunks (pre ++ [mkLightFileTextChunk js, iend]),
    by rw [hwc, hwcs], ?_⟩
  unfold ReadComment
  rw [hparse']
  dsimp only
  rw [findLightFileText_skip pre [mkLightFileTextChunk js, iend] hpreLF]
  rw [findLightFileText_hit js [iend]]
  dsimp only
  rw [unmarshalComment_marshalComment c js hjs hneg]

deriving instance DecidableEq for Except

/-- The terminal chunk by itself. -/
def iendChunk : Chunk := ⟨iendType, []⟩

/-- A minimal valid container: signature plus a lone terminal chunk. -/
def basePng : List Nat := pngSignature ++ serializeChunks [iendChunk]

/-- A sample comment with a finite score. -/
def sampleComment : LightFileComment := ⟨"x", 1, 1, false, .finite 0⟩

/-- The JSON bytes of the sample comment. -/
def sampleJs : List Nat := (marshalComment sampleComment).getD []

/-- Witness for C5 at a concrete container and comment. -/
theorem writeComment_readComment_roundtrip_witness :
    ParseBytes basePng = .ok [iendChunk] ∧
    marshalComment sampleComment = some sampleJs ∧
    sampleJs.length + 10 < 4294967296 ∧
    (∃ out, WriteComment basePng sampleComment = .ok out ∧
      ReadComment out = .ok (some sampleComment, sampleJs)) :=
  ⟨by decide, rfl, by decide, writeComment_readComment_roundtrip basePng [iendChunk]
    sampleComment sampleJs (by decide) (Or.inr ⟨0, rfl⟩) rfl (by decide)⟩

/-- Witness for C6: a concrete insertion and a concrete no-terminal failure. -/
theorem writeCommentString_spec_witness :
    (∃ out cs' pre iend, WriteCommentString basePng [104, 105] = .ok out ∧
      ParseBytes out = .ok cs' ∧
      pre = ([iendChunk].dropLast).filter (fun c => !(isLightFileTextChunk c)) ∧
      cs' = pre ++ [mkLightFileTextChunk [104, 105], iend] ∧
      iend.ty = iendType ∧ [iendChunk].getLast? = some iend ∧
      cs'.countP (fun c => isLightFileTextChunk c) = 1) ∧
    (∃ e, WriteCommentString (pngSignature ++ serializeChunks [⟨tEXtType, []⟩]) [104] =
        .error e ∧ e.isData = true) :=
  ⟨writeCommentString_spec.1 basePng [104, 105] [iendChunk] (by decide) (by decide) (by decide),
   writeCommentString_spec.2 [⟨tEXtType, []⟩] [104] (by decide) (by decide)⟩

/-! ### The `Pngquant` wrapper and the pipeline orchestrator

The pipeline operates on in-memory byte strings; reading the source file and
writing the destination file are the external file surface, so `Run` takes
the source bytes directly and returns the bytes it would write (`none` when
no output file is created).  External collaborators are oracle fields of
`RunEnv`:
  - `strip` is `pngmetawebstrip.Strip` (summary modelled from the spec:
    categories of removed ancillary data);
  - `decodeRgba` is the stdlib `png.Decode` as classified by
    `decodeRgbaPng` (palette model, `*image.NRGBA`, `*image.RGBA`, other);
  - `engine` is the libimagequant quantize-and-reencode path of `Pngquant`;
  - `psnrCompute` is `psnr.Compute` of `go-psnr`, whose algorithm is the
    in-repository `PngPsnr` after decoding (`psnrComputeModel`). -/

/-- Modelled from the spec: the structured summary the external
metadata-stripping collaborator returns (categories of removed data). -/
structure StripSummary where
  text : Bool := false
  timeStamp : Bool := false
  profile : Bool := false
  other : Bool := false
  deriving DecidableEq, Repr

/-- Outcome of the stdlib PNG decode as `decodeRgbaPng` classifies it. -/
inductive DecodedPng where
  | paletted
  | nrgba (img : Rgba8)
  | rgba (img : Rgba8)
  | unsupported

/-- Embedding of `decodeRgbaPng`: a palette-model image yields `none`
(already index-color), an NRGBA image is converted, an RGBA image is used
directly, and any other color model is a data error. -/
def decodeRgbaPng (decode : List Nat → Except PngError DecodedPng) (data : List Nat) :
    Except PngError (Option Rgba8) :=
  match decode data with
  | .error e => .error e
  | .ok .paletted => .ok none
  | .ok (.nrgba img) => .ok (some (convertNRGBAToRGBA img))
  | .ok (.rgba img) => .ok (some img)
  | .ok .unsupported => .error (.data "png: unsupported image type on decoding")

/-- Embedding of `Pngquant`: decode; an already index-color image is
returned unchanged; otherwise the external engine quantizes and re-encodes. -/
def Pngquant (decode : List Nat → Except PngError DecodedPng)
    (engine : Rgba8 → Except PngError (List Nat)) (data : List Nat) :
    Except PngError (List Nat) :=
  match decodeRgbaPng decode data with
  | .error e => .error e
  | .ok none => .ok data
  | .ok (some img) => engine img

/-- The external collaborators of one pipeline run. -/
structure RunEnv where
  strip : List Nat → Except PngError (List Nat × StripSummary)
  decodeRgba : List Nat → Except PngError DecodedPng
  engine : Rgba8 → Except PngError (List Nat)
  psnrCompute : List Nat → List Nat → Except PngError GoFloat

/-- Model of `psnr.Compute`: decode both byte strings and apply the
`PngPsnr` core. -/
def psnrComputeModel (decodeImg : List Nat → Except PngError Rgb16Image)
    (d1 d2 : List Nat) : Except PngError GoFloat :=
  match decodeImg d1 with
  | .error e => .error e
  | .ok i1 =>
    match decodeImg d2 with
    | .error e => .error e
    | .ok i2 => .ok (PngPsnr i1 i2)

theorem psnrComputeModel_self (decodeImg : List Nat → Except PngError Rgb16Image)
    (d : List Nat) (img : Rgb16Image) (h : decodeImg d = .ok img) :
    psnrComputeModel decodeImg d d = .ok .posInf := by
  unfold psnrComputeModel
  rw [h]
  dsimp only
  rw [pngPsnr_self]

/-- Embedding of `OptimizePNGOutput` from `png.go`; zero values are the Go
zero values of the fields. -/
structure OptimizePNGOutput where
  BeforeSize : Int := 0
  AlreadyOptimized : Bool := false
  AlreadyOptimizedBy : String := ""
  Strip : Option StripSummary := none
  StripError : Option PngError := none
  SizeAfterStrip : Int := 0
  PNGQuantPSNR : GoFloat := .finite 0
  PNGQuantApplied : Bool := false
  SizeAfterPNGQuant : Int := 0
  PNGQuantError : Option PngError := none
  CantOptimize : Bool := false
  InspectionFailed : Bool := false
  FinalPSNR : GoFloat := .finite 0
  AfterSize : Int := 0
  deriving DecidableEq, Repr

/-- The strip step of `Optimizer.Run` (soft-fail): on error, record a data
error and keep the input bytes; on success, record the summary and adopt
the stripped bytes.  Result: `(StripError, Strip, working bytes)`. -/
def stripStage (env : RunEnv) (pngData : List Nat) :
    Option PngError × Option StripSummary × List Nat :=
  match env.strip pngData with
  | .error _ => (some (.data "failed to strip metadata"), none, pngData)
  | .ok p => (none, some p.2, p.1)

/-- The quantize step of `Optimizer.Run` (soft-fail): quantize, score the
result against the input of this step, and adopt the quantized bytes only
when the score passes the threshold table.  Result:
`(PNGQuantError, PNGQuant.PSNR, PNGQuant.Applied, working bytes)`. -/
def quantStage (env : RunEnv) (quality : String) (pngData : List Nat) :
    Option PngError × GoFloat × Bool × List Nat :=
  match Pngquant env.decodeRgba env.engine pngData with
  | .error e => (some e, .finite 0, false, pngData)
  | .ok quantizedData =>
    match env.psnrCompute pngData quantizedData with
    | .error _ =>
      (some (.data "failed to calculate PSNR after PNGQuant"), .finite 0, false, pngData)
    | .ok psnrValue =>
      if isAcceptablePSNR quality psnrValue then (none, psnrValue, true, quantizedData)
      else (none, psnrValue, false, pngData)

/-- The body of `Optimizer.Run` after the already-optimized check: strip,
quantize, compute the final score, build the comment, size-check, embed,
inspect, and commit. -/
def runBody (env : RunEnv) (quality : String) (pngData0 : List Nat) :
    Except PngError (OptimizePNGOutput × Option (List Nat)) :=
  let beforeSize : Int := pngData0.length
  let s := stripStage env pngData0
  let d1 := s.2.2
  let q := quantStage env quality d1
  let d2 := q.2.2.2
  match env.psnrCompute pngData0 d2 with
  | .error _ => .error (.data "failed to calculate final PSNR")
  | .ok finalPSNR =>
    let comment : LightFileComment :=
      ⟨"LightFile", beforeSize, (d2.length : Int), q.2.2.1, finalPSNR⟩
    match BuildComment comment with
    | .error e => .error e
    | .ok bc =>
      let baseOut : OptimizePNGOutput :=
        { BeforeSize := beforeSize
          Strip := s.2.1
          StripError := s.1
          SizeAfterStrip := (d1.length : Int)
          PNGQuantPSNR := q.2.1
          PNGQuantApplied := q.2.2.1
          SizeAfterPNGQuant := (d2.length : Int)
          PNGQuantError := q.1 }
      if (d2.length : Int) + (bc.2 : Int) ≥ beforeSize then
        .ok ({ baseOut with CantOptimize := true }, none)
      else
        match WriteComment d2 comment with
        | .error e => .error e
        | .ok d3 =>
          if finalPSNR ≠ .posInf ∧ finalPSNR.lt PSNRThreshold = true then
            .ok ({ baseOut with FinalPSNR := finalPSNR, InspectionFailed := true }, none)
          else
            .ok ({ baseOut with
              FinalPSNR := finalPSNR
              AfterSize := (d3.length : Int) }, some d3)

/-- Embedding of `Optimizer.Run`: read the comment; a container already
carrying a comment with a non-empty tool identifier short-circuits with
`AlreadyOptimized`; otherwise the body runs. -/
def Run (env : RunEnv) (quality : String) (pngData : List Nat) :
    Except PngError (OptimizePNGOutput × Option (List Nat)) :=
  match ReadComment pngData with
  | .error e => .error e
  | .ok p =>
    match p.1 with
    | some c =>
      if c.By = "" then runBody env quality pngData
      else
        .ok ({ BeforeSize := (pngData.length : Int)
               AlreadyOptimized := true
               AlreadyOptimizedBy := c.By }, none)
    | none => runBody env quality pngData

/-- A run passes the already-optimized check (and so proceeds into the
pipeline body) when the comment is absent or carries an empty identifier. -/
def ReadCommentPasses (data : List Nat) : Prop :=
  match ReadComment data with
  | .ok (some c, _) => c.By = ""
  | .ok (none, _) => True
  | .error _ => False

instance : DecidablePred ReadCommentPasses := fun d => by
  unfold ReadCommentPasses
  exact match ReadComment d with
  | .error _ => isFalse (fun h => h)
  | .ok (some c, _) => inferInstanceAs (Decidable (c.By = ""))
  | .ok (none, _) => isTrue trivial

/-- C1 (code behaviour).  When the quantize step's input is already
index-color, `Pngquant` returns the input unchanged, the score of the
identical bytes is positive infinity, and an infinite score is always
acceptable — so the step records `Applied = true` and `PSNR = +Inf` while
keeping the working bytes unchanged (the claim, the spec, and the repo's own
test `TestOptimizerWithIndexedColor` expect `Applied = false` and
`PSNR = 0`). -/
theorem quantStage_indexed_divergence (env : RunEnv) (quality : String) (d : List Nat)
    (hdec : env.decodeRgba d = .ok .paletted)
    (hpsnr : env.psnrCompute d d = .ok .posInf) :
    quantStage env quality d = (none, .posInf, true, d) := by
  unfold quantStage Pngquant decodeRgbaPng
  rw [hdec]
  dsimp only
  rw [hpsnr]
  dsimp only
  rw [if_pos (by simp [isAcceptablePSNR])]

/-- A stub environment: stripping and the engine are unavailable, every
image decodes as palette-based, and scoring decodes every byte string to
the same image. -/
def stubEnv : RunEnv where
  strip := fun _ => .error (.data "strip unavailable")
  decodeRgba := fun _ => .ok .paletted
  engine := fun _ => .error (.data "engine unavailable")
  psnrCompute := psnrComputeModel (fun _ => .ok psnrImgA)

/-- Witness for C1 at a concrete environment and input. -/
theorem quantStage_indexed_divergence_witness :
    stubEnv.decodeRgba [] = .ok .paletted ∧
    stubEnv.psnrCompute [] [] = .ok .posInf ∧
    quantStage stubEnv "" [] = (none, .posInf, true, []) :=
  ⟨rfl, psnrComputeModel_self (fun _ => .ok psnrImgA) [] psnrImgA rfl,
   quantStage_indexed_divergence stubEnv "" [] rfl
     (psnrComputeModel_self (fun _ => .ok psnrImgA) [] psnrImgA rfl)⟩

/-- The record `Optimizer.Run` returns on the already-optimized short
circuit: only the original size, the flag and the tool identifier are set. -/
def alreadyOut (size : Int) (tool : String) : OptimizePNGOutput :=
  { BeforeSize := size
    AlreadyOptimized := true
    AlreadyOptimizedBy := tool }

/-- C2.  A source container already carrying a `LightFile` comment with a
non-empty tool identifier makes `Run` return `AlreadyOptimized = true` with
that identifier, no error, and no output bytes; no further pipeline step
runs (the result does not depend on the collaborators at all). -/
theorem run_alreadyOptimized (env : RunEnv) (quality : String) (data : List Nat)
    (c : LightFileComment) (raw : List Nat)
    (hrc : ReadComment data = .ok (some c, raw)) (hby : c.By ≠ "") :
    Run env quality data = .ok (alreadyOut (data.length : Int) c.By, none) ∧
    (∀ env2 : RunEnv, Run env2 quality data = Run env quality data) := by
  constructor
  · unfold Run
    rw [hrc]
    dsimp only
    rw [if_neg hby]
    rfl
  · intro env2
    unfold Run
    rw [hrc]
    dsimp only
    rw [if_neg hby, if_neg hby]

/-- A container that already carries the sample comment. -/
def c2png : List Nat :=
  pngSignature ++ serializeChunks [mkLightFileTextChunk sampleJs, iendChunk]

set_option maxRecDepth 100000 in
theorem readComment_c2png : ReadComment c2png = .ok (some sampleComment, sampleJs) := by
  have hwf : ∀ c ∈ [mkLightFileTextChunk sampleJs, iendChunk], ChunkWF c := by
    intro c hc
    simp only [List.mem_cons, List.not_mem_nil, or_false] at hc
    rcases hc with rfl | rfl
    · exact mkLightFileTextChunk_wf sampleJs (by decide) (by decide)
    · decide
  have hparse : ParseBytes (pngSignature ++
      serializeChunks [mkLightFileTextChunk sampleJs, iendChunk]) =
      .ok [mkLightFileTextChunk sampleJs, iendChunk] :=
    ParseBytes_serialize _ hwf iendChunk rfl rfl (by decide)
  unfold ReadComment c2png
  rw [hparse]
  dsimp only
  rw [findLightFileText_hit sampleJs [iendChunk]]
  dsimp only
  rw [unmarshalComment_marshalComment sampleComment sampleJs rfl (by decide)]

set_option maxRecDepth 100000 in
/-- Witness for C2 at a concrete already-optimized container. -/
theorem run_alreadyOptimized_witness :
    ReadComment c2png = .ok (some sampleComment, sampleJs) ∧ sampleComment.By ≠ "" ∧
    (Run stubEnv "" c2png = .ok (alreadyOut (c2png.length : Int) sampleComment.By, none) ∧
      (∀ env2 : RunEnv, Run env2 "" c2png = Run stubEnv "" c2png)) :=
  ⟨readComment_c2png, by decide,
   run_alreadyOptimized stubEnv "" c2png sampleComment sampleJs readComment_c2png (by decide)⟩

/-- C4.  Every run that reaches the size-check step with
`current size + embed cost ≥ original size` ends with `CantOptimize = true`,
no error, and no output bytes. -/
theorem run_cantOptimize (env : RunEnv) (quality : String) (data : List Nat)
    (fp : GoFloat) (js : List Nat) (inc : Nat)
    (hpass : ReadCommentPasses data)
    (hfp : env.psnrCompute data
      (quantStage env quality (stripStage env data).2.2).2.2.2 = .ok fp)
    (hbc : BuildComment ⟨"LightFile", (data.length : Int),
      ((quantStage env quality (stripStage env data).2.2).2.2.2.length : Int),
      (quantStage env quality (stripStage env data).2.2).2.2.1, fp⟩ = .ok (js, inc))
    (hsize : ((quantStage env quality (stripStage env data).2.2).2.2.2.length : Int) +
      (inc : Int) ≥ (data.length : Int)) :
    ∃ out, Run env quality data = .ok (out, none) ∧ out.CantOptimize = true ∧
      out.InspectionFailed = false ∧ out.AlreadyOptimized = false := by
  have hbody : ∃ out, runBody env quality data = .ok (out, none) ∧
      out.CantOptimize = true ∧ out.InspectionFailed = false ∧
      out.AlreadyOptimized = false := by
    unfold runBody
    dsimp only
    rw [hfp]
    dsimp only
    rw [hbc]
    dsimp only
    rw [if_pos hsize]
    exact ⟨_, rfl, rfl, rfl, rfl⟩
  unfold ReadCommentPasses at hpass
  unfold Run
  cases hrc : ReadComment data with
  | error e =>
    rw [hrc] at hpass
    cases hpass
  | ok p =>
    rw [hrc] at hpass
    match p with
    | (some c, raw) =>
      dsimp only
      rw [if_pos hpass]
      exact hbody
    | (none, raw) =>
      dsimp only
      exact hbody

/-- The comment the size-check witness produces. -/
def c4js : List Nat :=
  (marshalComment ⟨"LightFile", (basePng.length : Int), (basePng.length : Int), true,
    .posInf⟩).getD []

set_option maxRecDepth 100000 in
/-- Witness for C4 at a concrete run that reaches the size check. -/
theorem run_cantOptimize_witness :
    ReadCommentPasses basePng ∧
    stubEnv.psnrCompute basePng
      (quantStage stubEnv "" (stripStage stubEnv basePng).2.2).2.2.2 = .ok .posInf ∧
    BuildComment ⟨"LightFile", (basePng.length : Int),
      ((quantStage stubEnv "" (stripStage stubEnv basePng).2.2).2.2.2.length : Int),
      (quantStage stubEnv "" (stripStage stubEnv basePng).2.2).2.2.1, .posInf⟩ =
      .ok (c4js, 22 + c4js.length) ∧
    (∃ out, Run stubEnv "" basePng = .ok (out, none) ∧ out.CantOptimize = true ∧
      out.InspectionFailed = false ∧ out.AlreadyOptimized = false) :=
  ⟨by decide, by decide, by decide,
   run_cantOptimize stubEnv "" basePng .posInf c4js (22 + c4js.length)
     (by decide) (by decide) (by decide) (by decide)⟩
